import Mathlib

/-!
Verification of an interactive arithmetic-expression evaluator written in Rust
(`src/expression.rs`, `src/parser.rs`).  The development shallowly embeds the
expression tree and the recursive-descent parser and proves the testable
properties of the specification against the embedding.

Modelling decisions, stated once here and referenced from the definitions:

* Rust `f64` values are modelled by the type `FP`: IEEE-754 special values
  (`nan`, the two infinities, the negative zero) are represented exactly, and
  finite values are carried as exact rationals.  Real doubles round every
  finite result to 53 bits of precision; that rounding is the one aspect the
  model abstracts away (the specification itself quantifies results only
  "within standard float rounding").  The special-value and sign rules of the
  arithmetic operations follow IEEE-754 exactly.

* The Rust parser's cursor (`struct Parser` with fields `idx`, `str: Chars`,
  `cur: Option<char>`) is modelled by `Parser` with `idx : Nat` and
  `rest : List Char`, where `rest` is the current character (if any) followed
  by the characters the iterator has not yet produced.

* The mutually recursive descent functions `parse_base`/`parse_mul`/`parse_add`
  terminate in Rust because every cycle of the recursion consumes at least one
  character.  The embedding makes termination syntactic by giving these three
  functions a fuel parameter; `parse` passes fuel `3 * length + 3`, which is
  proved sufficient (`parse_add_total`), so the `none` (out-of-fuel) branch of
  the embedding never fires at the entry point.
-/

namespace RE

/-- Model of an IEEE-754 double: NaN, the infinities, the negative zero and
finite values as exact rationals (`fin 0` is positive zero).  Rounding of
finite results is abstracted; see the module docstring. -/
inductive FP where
  | nan : FP
  | pinf : FP
  | ninf : FP
  | mzero : FP
  | fin : ℚ → FP
deriving DecidableEq

/-- Sign bit of a float: `true` means negative.  (Unused for NaN.) -/
def FP.signBit : FP → Bool
  | FP.nan => false
  | FP.pinf => false
  | FP.ninf => true
  | FP.mzero => true
  | FP.fin q => q < 0

/-- Is the value one of the two zeros? -/
def FP.isZero : FP → Bool
  | FP.mzero => true
  | FP.fin q => q = 0
  | _ => false

/-- Rational carried by a finite value (both zeros give `0`). -/
def FP.finVal : FP → ℚ
  | FP.fin q => q
  | _ => 0

/-- The zero of the given sign. -/
def FP.zeroOfSign (b : Bool) : FP := if b then FP.mzero else FP.fin 0

/-- The infinity of the given sign. -/
def FP.infOfSign (b : Bool) : FP := if b then FP.ninf else FP.pinf

/-- IEEE negation (flips the sign bit, including the sign of zero). -/
def FP.neg : FP → FP
  | FP.nan => FP.nan
  | FP.pinf => FP.ninf
  | FP.ninf => FP.pinf
  | FP.mzero => FP.fin 0
  | FP.fin q => if q = 0 then FP.mzero else FP.fin (-q)

/-- IEEE addition (round-to-nearest; exact cancellation gives `+0`). -/
def FP.add : FP → FP → FP
  | FP.nan, _ => FP.nan
  | _, FP.nan => FP.nan
  | FP.pinf, FP.ninf => FP.nan
  | FP.ninf, FP.pinf => FP.nan
  | FP.pinf, _ => FP.pinf
  | _, FP.pinf => FP.pinf
  | FP.ninf, _ => FP.ninf
  | _, FP.ninf => FP.ninf
  | FP.mzero, FP.mzero => FP.mzero
  | x, y => FP.fin (FP.finVal x + FP.finVal y)

/-- IEEE subtraction; `x - y` is exactly `x + (-y)`. -/
def FP.sub (x y : FP) : FP := FP.add x (FP.neg y)

/-- IEEE multiplication. -/
def FP.mul (x y : FP) : FP :=
  match x, y with
  | FP.nan, _ => FP.nan
  | _, FP.nan => FP.nan
  | FP.pinf, y => if FP.isZero y then FP.nan else FP.infOfSign (FP.signBit y)
  | FP.ninf, y => if FP.isZero y then FP.nan else FP.infOfSign (!FP.signBit y)
  | x, FP.pinf => if FP.isZero x then FP.nan else FP.infOfSign (FP.signBit x)
  | x, FP.ninf => if FP.isZero x then FP.nan else FP.infOfSign (!FP.signBit x)
  | x, y =>
    let s := FP.signBit x != FP.signBit y
    let p := FP.finVal x * FP.finVal y
    if p = 0 then FP.zeroOfSign s else FP.fin p

/-- IEEE division: a nonzero finite value divided by a zero gives a signed
infinity, `0 / 0` gives NaN. -/
def FP.div (x y : FP) : FP :=
  match x, y with
  | FP.nan, _ => FP.nan
  | _, FP.nan => FP.nan
  | FP.pinf, FP.pinf | FP.pinf, FP.ninf | FP.ninf, FP.pinf | FP.ninf, FP.ninf => FP.nan
  | FP.pinf, y => FP.infOfSign (FP.signBit y)
  | FP.ninf, y => FP.infOfSign (!FP.signBit y)
  | x, FP.pinf => FP.zeroOfSign (FP.signBit x)
  | x, FP.ninf => FP.zeroOfSign (!FP.signBit x)
  | x, y =>
    let s := FP.signBit x != FP.signBit y
    if FP.isZero y then
      if FP.isZero x then FP.nan else FP.infOfSign s
    else
      let q := FP.finVal x / FP.finVal y
      if q = 0 then FP.zeroOfSign s else FP.fin q

/-- Truncation toward zero of a rational. -/
def ratTrunc (q : ℚ) : ℤ := if q < 0 then -(⌊-q⌋) else ⌊q⌋

/-- Rust's `%` on `f64`, the fmod operation: `x - y * trunc(x / y)`, result
sign following the dividend; `x % 0`, `inf % y` give NaN, `x % inf = x` for
finite `x`. -/
def FP.rem (x y : FP) : FP :=
  match x, y with
  | FP.nan, _ => FP.nan
  | _, FP.nan => FP.nan
  | FP.pinf, _ => FP.nan
  | FP.ninf, _ => FP.nan
  | x, FP.pinf => x
  | x, FP.ninf => x
  | x, y =>
    if FP.isZero y then FP.nan
    else
      let a := FP.finVal x
      let b := FP.finVal y
      let r := a - b * (ratTrunc (a / b) : ℚ)
      if r = 0 then FP.zeroOfSign (FP.signBit x) else FP.fin r

/-- IEEE `<` against `+0.0`, as used by `_abs` in `expression.rs`:
`NaN < 0.0` and `-0.0 < 0.0` are both false. -/
def FP.ltZero : FP → Bool
  | FP.nan => false
  | FP.pinf => false
  | FP.ninf => true
  | FP.mzero => false
  | FP.fin q => q < 0

/-- Expression trees, from `expression.rs`: the `Operator` enum together with
the constant leaf (a boxed numeric value, always evaluated as `f64`). -/
inductive Expression where
  | Constant : ℚ → Expression
  | Add : Expression → Expression → Expression
  | Sub : Expression → Expression → Expression
  | Mul : Expression → Expression → Expression
  | Div : Expression → Expression → Expression
  | Rem : Expression → Expression → Expression
  | Neg : Expression → Expression
  | Abs : Expression → Expression
deriving DecidableEq

/-- Factory `val` from `expression.rs` (the numeric value is stored and
evaluates to itself). -/
def val (v : ℚ) : Expression := Expression.Constant v

/-- Factory `add` from `expression.rs`. -/
def add (l r : Expression) : Expression := Expression.Add l r

/-- Factory `sub` from `expression.rs`. -/
def sub (l r : Expression) : Expression := Expression.Sub l r

/-- Factory `mul` from `expression.rs`. -/
def mul (l r : Expression) : Expression := Expression.Mul l r

/-- Factory `div` from `expression.rs`. -/
def div (l r : Expression) : Expression := Expression.Div l r

/-- Factory `rem` from `expression.rs`. -/
def rem (l r : Expression) : Expression := Expression.Rem l r

/-- Factory `neg` from `expression.rs`. -/
def neg (e : Expression) : Expression := Expression.Neg e

/-- Factory `abs` from `expression.rs`. -/
def abs (e : Expression) : Expression := Expression.Abs e

/-- The helper `_abs` from `expression.rs`: `if n < 0.0 { -n } else { n }`. -/
def _abs (n : FP) : FP := if FP.ltZero n then FP.neg n else n

/-- `Operator::eval` together with the numeric `Expression` impls from
`expression.rs`: a constant evaluates to itself, operator nodes apply the
corresponding `f64` operation to the recursively evaluated children. -/
def Expression.eval : Expression → FP
  | Expression.Constant v => FP.fin v
  | Expression.Add l r => FP.add l.eval r.eval
  | Expression.Sub l r => FP.sub l.eval r.eval
  | Expression.Mul l r => FP.mul l.eval r.eval
  | Expression.Div l r => FP.div l.eval r.eval
  | Expression.Rem l r => FP.rem l.eval r.eval
  | Expression.Neg e => FP.neg e.eval
  | Expression.Abs e => _abs e.eval

/-- A parse result, from `parser.rs`: a successfully parsed expression, the
absence of anything parseable, or a syntax error with a message and the
0-based character index where it was detected. -/
inductive ParseResult where
  | Present : Expression → ParseResult
  | Absent : ParseResult
  | Error : String → Nat → ParseResult
deriving DecidableEq

/-- `ParseResult::map`: if the result is `Present`, applies the function on the
resulting expression and wraps it back as `Present`; otherwise it returns
itself.  (The Rust combinator additionally threads opaque user data through to
the closure, which the embedding does not need.) -/
def ParseResult.map (f : Expression → Expression) : ParseResult → ParseResult
  | ParseResult.Present x => ParseResult.Present (f x)
  | x => x

/-- The parser cursor, from `parser.rs`: `idx` is the current index in the
string, `rest` is the current character (the source's `cur`) followed by the
characters the source's iterator has not yet produced. -/
structure Parser where
  idx : Nat
  rest : List Char
deriving DecidableEq

/-- `Parser::peek`: one character of lookahead; newlines and carriage returns
are interpreted as end of input. -/
def Parser.peek (s : Parser) : Option Char :=
  match s.rest with
  | [] => none
  | ch :: _ => if ch = '\n' || ch = '\r' then none else some ch

/-- `Parser::skip`: advance past one character. -/
def Parser.skip (s : Parser) : Parser := { idx := s.idx + 1, rest := s.rest.tail }

/-- `_is_space` from `parser.rs`: tab or space. -/
def _is_space : Option Char → Bool
  | none => false
  | some ch => ch = ' ' || ch = '\t'

/-- Models Rust `char::is_numeric`, which is true exactly for characters whose
Unicode general category is Nd, Nl or No.  The model classifies exactly the
characters this development exercises: the ASCII digits, and — as
representatives of the non-ASCII characters that `is_numeric` also accepts —
the Arabic-Indic digits U+0660–U+0669 (category Nd) and the vulgar fractions
¼ ½ ¾ (category No).  Every other character of the model is non-numeric. -/
def is_numeric (ch : Char) : Bool :=
  ch.isDigit || (0x660 ≤ ch.toNat && ch.toNat ≤ 0x669) || ch = '¼' || ch = '½' || ch = '¾'

/-- `_is_number_char` from `parser.rs`: `ch.is_numeric() || ch == '.'`. -/
def _is_number_char : Option Char → Bool
  | none => false
  | some ch => is_numeric ch || ch = '.'

/-- `Parser::skip_space`: skip any spaces in the input (the `while
_is_space(self.peek())` loop, expressed as structural recursion over the
remaining characters; the advance inside the loop is `Parser.skip`). -/
def Parser.skip_space (s : Parser) : Parser :=
  go s.idx s.rest
where
  /-- One iteration of the `while` loop of `skip_space`. -/
  go : Nat → List Char → Parser
  | i, [] => ⟨i, []⟩
  | i, c :: r =>
    if _is_space (Parser.peek ⟨i, c :: r⟩) then go (i + 1) r
    else ⟨i, c :: r⟩

/-- `Parser::symbol`: skip any spaces, then peek; returns the advanced
cursor alongside the lookahead (the Rust method mutates the cursor in
place). -/
def Parser.symbol (s : Parser) : Option Char × Parser :=
  let t := s.skip_space
  (t.peek, t)

/-- The `while _is_number_char(c)` loop of `Parser::parse_number`: the
characters pushed onto `st` and the cursor after the loop. -/
def Parser.read_num (s : Parser) : List Char × Parser :=
  go s.idx s.rest
where
  /-- One iteration of the digit-reading loop of `parse_number`. -/
  go : Nat → List Char → List Char × Parser
  | i, [] => ([], ⟨i, []⟩)
  | i, c :: r =>
    if _is_number_char (Parser.peek ⟨i, c :: r⟩) then
      let p := go (i + 1) r
      (c :: p.1, p.2)
    else ([], ⟨i, c :: r⟩)

/-- Numeric value of a run of ASCII digits. -/
def digits_val (l : List Char) : Nat := l.foldl (fun a c => 10 * a + (c.toNat - 48)) 0

/-- Models Rust `str::parse::<f64>()` applied to the captured text of a number
run, whose characters all satisfy `_is_number_char`.  On such strings the Rust
float grammar accepts exactly `Count '.'? | Count '.' Count | '.' Count` with
`Count` a run of ASCII digits — that is, only ASCII digits and at most one
dot, with at least one digit — and the resulting double is the correctly
rounded decimal value (rounding abstracted; out-of-range decimals round to
infinity, which also needs no extra case here).  Everything else — a second
dot, a lone dot, or any non-ASCII numeric character — fails to convert. -/
def parse_f64 (cs : List Char) : Option ℚ :=
  if (cs.all fun c => c.isDigit || c = '.') = true
      ∧ (cs.any fun c => c.isDigit) = true
      ∧ cs.countP (fun c => c = '.') ≤ 1 then
    let ip := cs.takeWhile fun c => c ≠ '.'
    let fp := (cs.dropWhile fun c => c ≠ '.').tail
    -- the decimal `ip.fp` as an exact fraction
    some (mkRat (digits_val ip * 10 ^ fp.length + digits_val fp) (10 ^ fp.length))
  else none

/-- `Parser::parse_number`: skip spaces; if the lookahead is not a number
character return `Absent`; otherwise read the maximal run of number characters
and convert it, a conversion failure giving `Error("Incorrect number")` at the
start position of the run. -/
def Parser.parse_number (s0 : Parser) : ParseResult × Parser :=
  let s := s0.skip_space
  let st := s.idx
  if _is_number_char s.peek then
    let p := s.read_num
    match parse_f64 p.1 with
    | some v => (ParseResult.Present (val v), p.2)
    | none => (ParseResult.Error (r"Incorrect number") st, p.2)
  else (ParseResult.Absent, s)

/-- A multiplication operator, from `parser.rs`. -/
inductive MulOp where
  | Mul : MulOp
  | Div : MulOp
  | Rem : MulOp
deriving DecidableEq

/-- An addition operator, from `parser.rs`. -/
inductive AddOp where
  | Add : AddOp
  | Sub : AddOp
deriving DecidableEq

/-- The five alternatives `parse_base` dispatches between. -/
inductive BaseRule where
  | minus : BaseRule
  | plus : BaseRule
  | paren : BaseRule
  | bars : BaseRule
  | number : BaseRule
deriving DecidableEq

/-- The dispatch `match self.symbol()` at the head of `Parser::parse_base`:
rule 2 on `-`, rule 3 on `+`, rule 4 on `(`, rule 5 on `|`, rule 1 (number)
on anything else. -/
def base_rule_of : Option Char → BaseRule
  | some '-' => BaseRule.minus
  | some '+' => BaseRule.plus
  | some '(' => BaseRule.paren
  | some '|' => BaseRule.bars
  | _ => BaseRule.number

/-- The operator dispatch `match self.symbol()` of `Parser::parse_mul`;
`none` models the source's early `return Present(lhs)` (rule 1). -/
def mul_op_of : Option Char → Option MulOp
  | some '*' => some MulOp.Mul
  | some '/' => some MulOp.Div
  | some '%' => some MulOp.Rem
  | _ => none

/-- The operator dispatch `match self.symbol()` of `Parser::parse_add`;
`none` models the source's early `return Present(lhs)` (rule 1). -/
def add_op_of : Option Char → Option AddOp
  | some '+' => some AddOp.Add
  | some '-' => some AddOp.Sub
  | _ => none

mutual

/-- `Parser::parse_base`.  Rule 2/3: `-`/`+` consume the operator and negate a
recursively parsed base.  Rule 4/5: `(`/`|` consume the opener, parse an `add`,
and require the matching closer (the source expresses the closer check with
`ParseResult::monad`, whose closure runs only on `Present` and mutates the
cursor; the embedding inlines that combinator as the explicit match on the
`Present` case).  Rule 1: anything else delegates to `parse_number`.  The
first fuel argument only makes the Rust recursion (which consumes at least one
character per cycle) syntactically terminating; see the module docstring. -/
def Parser.parse_base : Nat → Parser → Option (ParseResult × Parser)
  | 0, _ => none
  | n + 1, s0 =>
    let s := s0.skip_space
    match base_rule_of s.peek with
    | BaseRule.minus =>
      match Parser.parse_base n s.skip with
      | none => none
      | some (r, s1) => some (r.map (fun exp => neg exp), s1)
    | BaseRule.plus =>
      match Parser.parse_base n s.skip with
      | none => none
      | some (r, s1) => some (r.map (fun exp => neg exp), s1)
    | BaseRule.paren =>
      match Parser.parse_add n s.skip with
      | none => none
      | some (ParseResult.Present exp, s1) =>
        let s2 := s1.skip_space
        -- the closing check `p.peek().map_or(true, ...)` from the source
        if (s2.peek.map fun ch => ch != ')').getD true then
          some (ParseResult.Error (r"Expected ')'") s2.idx, s2)
        else
          some (ParseResult.Present exp, s2.skip)
      | some (r, s1) => some (r, s1)
    | BaseRule.bars =>
      match Parser.parse_add n s.skip with
      | none => none
      | some (ParseResult.Present exp, s1) =>
        let s2 := s1.skip_space
        -- the closing check `p.peek().map_or(true, ...)` from the source
        if (s2.peek.map fun ch => ch != '|').getD true then
          some (ParseResult.Error (r"Expected '|'") s2.idx, s2)
        else
          some (ParseResult.Present (abs exp), s2.skip)
      | some (r, s1) => some (r, s1)
    | BaseRule.number => some (Parser.parse_number s)
termination_by structural n _ => n

/-- `Parser::parse_mul`: parse a base; propagate a non-`Present` result with
the cursor as it stands; otherwise select the operator from the next non-space
symbol (no operator returns the left result), consume it and recursively parse
another `mul` on the right — right-associative by construction. -/
def Parser.parse_mul : Nat → Parser → Option (ParseResult × Parser)
  | 0, _ => none
  | n + 1, s0 =>
    match Parser.parse_base n s0 with
    | none => none
    | some (ParseResult.Present lhs, s1) =>
      let s2 := s1.skip_space
      match mul_op_of s2.peek with
      | none => some (ParseResult.Present lhs, s2)
      | some op =>
        match Parser.parse_mul n s2.skip with
        | none => none
        | some (right, s3) =>
          some (right.map (fun rhs =>
            match op with
            | MulOp.Mul => mul lhs rhs
            | MulOp.Div => div lhs rhs
            | MulOp.Rem => rem lhs rhs), s3)
    | some (other, s1) => some (other, s1)
termination_by structural n _ => n

/-- `Parser::parse_add`: same shape as `parse_mul` one precedence level up,
with `+`/`-` and a right-recursive `add`. -/
def Parser.parse_add : Nat → Parser → Option (ParseResult × Parser)
  | 0, _ => none
  | n + 1, s0 =>
    match Parser.parse_mul n s0 with
    | none => none
    | some (ParseResult.Present lhs, s1) =>
      let s2 := s1.skip_space
      match add_op_of s2.peek with
      | none => some (ParseResult.Present lhs, s2)
      | some op =>
        match Parser.parse_add n s2.skip with
        | none => none
        | some (right, s3) =>
          some (right.map (fun rhs =>
            match op with
            | AddOp.Add => add lhs rhs
            | AddOp.Sub => sub lhs rhs), s3)
    | some (other, s1) => some (other, s1)
termination_by structural n _ => n

end

/-- The fuel `parse` hands to the descent; proved sufficient by
`parse_add_total`. -/
def parseFuel (l : List Char) : Nat := 3 * l.length + 3

/-- The entry point `parse` from `parser.rs`: run `parse_add` from index 0,
return errors immediately; otherwise skip trailing spaces and demand that the
input is exhausted, any remaining character being an "Extra input" error at
the current index.  The `none` branch is unreachable because `parseFuel` is
sufficient (`parse_add_total`). -/
def parse (l : List Char) : ParseResult :=
  match Parser.parse_add (parseFuel l) ⟨0, l⟩ with
  | none => ParseResult.Error (r"out of fuel - unreachable, see parse_add_total") 0
  | some (ParseResult.Error x i, _) => ParseResult.Error x i
  | some (res, s) =>
    let s' := s.skip_space
    match s'.peek with
    | none => res
    | some _ => ParseResult.Error (r"Extra input") s'.idx

/-! ### Character-level helper predicates and basic cursor lemmas -/

/-- Space or tab, at the character level (cf. `_is_space`). -/
def is_sp (c : Char) : Bool := c = ' ' || c = '\t'

/-- Number character, at the character level (cf. `_is_number_char`). -/
def numB (c : Char) : Bool := is_numeric c || c = '.'

/-- A line terminator (the characters `Parser::peek` maps to end-of-input). -/
def isNL (c : Char) : Bool := c = '\n' || c = '\r'

theorem peek_nil (i : Nat) : Parser.peek ⟨i, []⟩ = none := rfl

theorem peek_cons (i : Nat) (c : Char) (r : List Char) :
    Parser.peek ⟨i, c :: r⟩ = if isNL c then none else some c := rfl

theorem isNL_not_sp {c : Char} (h : isNL c = true) : is_sp c = false := by
  rcases Bool.or_eq_true_iff.mp h with h' | h' <;>
    · rw [show c = _ from of_decide_eq_true h']; decide

theorem isNL_not_numB {c : Char} (h : isNL c = true) : numB c = false := by
  rcases Bool.or_eq_true_iff.mp h with h' | h' <;>
    · rw [show c = _ from of_decide_eq_true h']; decide

theorem sp_not_numB {c : Char} (h : is_sp c = true) : numB c = false := by
  rcases Bool.or_eq_true_iff.mp h with h' | h' <;>
    · rw [show c = _ from of_decide_eq_true h']; decide

theorem numB_not_NL {c : Char} (h : numB c = true) : isNL c = false := by
  cases hn : isNL c with
  | false => rfl
  | true => rw [isNL_not_numB hn] at h; exact absurd h (by decide)

theorem _is_space_peek (i : Nat) (c : Char) (r : List Char) :
    _is_space (Parser.peek ⟨i, c :: r⟩) = is_sp c := by
  rw [peek_cons]
  cases h : isNL c with
  | true => rw [if_pos rfl, isNL_not_sp h]; rfl
  | false => rw [if_neg (by simp [h])]; rfl

theorem _is_number_char_peek (i : Nat) (c : Char) (r : List Char) :
    _is_number_char (Parser.peek ⟨i, c :: r⟩) = numB c := by
  rw [peek_cons]
  cases h : isNL c with
  | true => rw [if_pos rfl, isNL_not_numB h]; rfl
  | false => rw [if_neg (by simp [h])]; rfl

theorem peek_some {s : Parser} {c : Char} (h : Parser.peek s = some c) :
    ∃ r, s.rest = c :: r ∧ isNL c = false := by
  obtain ⟨i, l⟩ := s
  cases l with
  | nil => exact absurd h (by simp [Parser.peek])
  | cons c' r =>
    rw [peek_cons] at h
    cases hn : isNL c' with
    | true => rw [if_pos (by simp [hn])] at h; cases h
    | false =>
      rw [if_neg (by simp [hn])] at h
      cases h
      exact ⟨r, rfl, hn⟩

/-- `skip_space` characterized by `takeWhile`/`dropWhile` over `is_sp`. -/
theorem skip_space_go_eq (l : List Char) : ∀ i : Nat,
    Parser.skip_space.go i l = ⟨i + (l.takeWhile is_sp).length, l.dropWhile is_sp⟩ := by
  induction l with
  | nil => intro i; simp [Parser.skip_space.go, List.takeWhile, List.dropWhile]
  | cons c r ih =>
    intro i
    rw [Parser.skip_space.go, _is_space_peek]
    cases h : is_sp c with
    | true =>
      rw [if_pos rfl, ih (i + 1), List.takeWhile_cons, List.dropWhile_cons]
      simp only [h, if_pos]
      refine congrArg₂ Parser.mk ?_ rfl
      simp only [List.length_cons]
      omega
    | false =>
      rw [if_neg (by simp [h]), List.takeWhile_cons, List.dropWhile_cons]
      simp [h]

theorem skip_space_eq (i : Nat) (l : List Char) :
    Parser.skip_space ⟨i, l⟩ = ⟨i + (l.takeWhile is_sp).length, l.dropWhile is_sp⟩ :=
  skip_space_go_eq l i

/-- `skip_space` does nothing when the first character is not a space. -/
theorem skip_space_eq_self {i : Nat} {l : List Char}
    (h : ∀ c, l.head? = some c → is_sp c = false) :
    Parser.skip_space ⟨i, l⟩ = ⟨i, l⟩ := by
  rw [skip_space_eq]
  cases l with
  | nil => rfl
  | cons c r =>
    have hc := h c rfl
    rw [List.takeWhile_cons, List.dropWhile_cons]
    simp [hc]

/-- The reading loop of `parse_number` characterized by `takeWhile`/`dropWhile`
over `numB`. -/
theorem read_num_go_eq (l : List Char) : ∀ i : Nat,
    Parser.read_num.go i l =
      (l.takeWhile numB, ⟨i + (l.takeWhile numB).length, l.dropWhile numB⟩) := by
  induction l with
  | nil => intro i; simp [Parser.read_num.go, List.takeWhile, List.dropWhile]
  | cons c r ih =>
    intro i
    rw [Parser.read_num.go, _is_number_char_peek]
    cases h : numB c with
    | true =>
      rw [if_pos rfl, List.takeWhile_cons, List.dropWhile_cons]
      simp only [h, if_pos, ih (i + 1)]
      refine congrArg₂ Prod.mk rfl (congrArg₂ Parser.mk ?_ rfl)
      simp only [List.length_cons]
      omega
    | false =>
      rw [if_neg (by simp [h]), List.takeWhile_cons, List.dropWhile_cons]
      simp [h]

theorem read_num_eq (i : Nat) (l : List Char) :
    Parser.read_num ⟨i, l⟩ =
      (l.takeWhile numB, ⟨i + (l.takeWhile numB).length, l.dropWhile numB⟩) :=
  read_num_go_eq l i

/-! ### Length bookkeeping for cursor-advancing operations -/

theorem length_dropWhile_le (p : Char → Bool) (l : List Char) :
    (l.dropWhile p).length ≤ l.length := by
  induction l with
  | nil => simp [List.dropWhile]
  | cons c r ih =>
    rw [List.dropWhile_cons]
    split
    · simp only [List.length_cons]; omega
    · exact le_refl _

theorem skip_len (s : Parser) : (Parser.skip s).rest.length ≤ s.rest.length := by
  show s.rest.tail.length ≤ s.rest.length
  rw [List.length_tail]
  omega

theorem skip_space_len (s : Parser) : (Parser.skip_space s).rest.length ≤ s.rest.length := by
  obtain ⟨i, l⟩ := s
  rw [skip_space_eq]
  exact length_dropWhile_le _ _

theorem parse_number_len (s0 : Parser) :
    (Parser.parse_number s0).2.rest.length ≤ s0.rest.length := by
  obtain ⟨i, l⟩ := s0
  simp only [Parser.parse_number, skip_space_eq, read_num_eq]
  have h1 := length_dropWhile_le is_sp l
  have h2 := length_dropWhile_le numB (l.dropWhile is_sp)
  split
  · split <;> · simp only []; omega
  · simpa using h1

/-- A successful run of any of the three descent functions never lengthens the
remaining input. -/
theorem parse_len_mono : ∀ n : Nat,
    (∀ s0 r s', Parser.parse_base n s0 = some (r, s') → s'.rest.length ≤ s0.rest.length) ∧
    (∀ s0 r s', Parser.parse_mul n s0 = some (r, s') → s'.rest.length ≤ s0.rest.length) ∧
    (∀ s0 r s', Parser.parse_add n s0 = some (r, s') → s'.rest.length ≤ s0.rest.length) := by
  intro n
  induction n with
  | zero =>
    refine ⟨?_, ?_, ?_⟩ <;>
      · intro s0 r s' h
        simp only [Parser.parse_base, Parser.parse_mul, Parser.parse_add] at h
        exact Option.noConfusion h
  | succ n ih =>
    obtain ⟨ihb, ihm, iha⟩ := ih
    refine ⟨?_, ?_, ?_⟩
    · -- parse_base
      intro s0 r s' h
      simp only [Parser.parse_base] at h
      have hs := skip_space_len s0
      split at h
      · -- minus sign
        rcases hc : Parser.parse_base n (Parser.skip (Parser.skip_space s0)) with _ | ⟨r0, s1⟩
        · rw [hc] at h; cases h
        · rw [hc] at h
          injection h with h
          injection h with h1 h2
          subst h2
          have := ihb _ _ _ hc
          have := skip_len (Parser.skip_space s0)
          omega
      · -- plus sign
        rcases hc : Parser.parse_base n (Parser.skip (Parser.skip_space s0)) with _ | ⟨r0, s1⟩
        · rw [hc] at h; cases h
        · rw [hc] at h
          injection h with h
          injection h with h1 h2
          subst h2
          have := ihb _ _ _ hc
          have := skip_len (Parser.skip_space s0)
          omega
      · -- opening parenthesis
        rcases hc : Parser.parse_add n (Parser.skip (Parser.skip_space s0)) with _ | ⟨r0, s1⟩
        · rw [hc] at h; cases h
        · rw [hc] at h
          have h1 := iha _ _ _ hc
          have h2 := skip_len (Parser.skip_space s0)
          have h3 := skip_space_len s1
          have h4 := skip_len (Parser.skip_space s1)
          cases r0 with
          | Present e =>
            try simp only [] at h
            split at h
            · injection h with h
              injection h with ha hb
              subst hb
              omega
            · injection h with h
              injection h with ha hb
              subst hb
              omega
          | Absent =>
            try simp only [] at h
            injection h with h
            injection h with ha hb
            subst hb
            omega
          | Error m i =>
            try simp only [] at h
            injection h with h
            injection h with ha hb
            subst hb
            omega
      · -- opening bar
        rcases hc : Parser.parse_add n (Parser.skip (Parser.skip_space s0)) with _ | ⟨r0, s1⟩
        · rw [hc] at h; cases h
        · rw [hc] at h
          have h1 := iha _ _ _ hc
          have h2 := skip_len (Parser.skip_space s0)
          have h3 := skip_space_len s1
          have h4 := skip_len (Parser.skip_space s1)
          cases r0 with
          | Present e =>
            try simp only [] at h
            split at h
            · injection h with h
              injection h with ha hb
              subst hb
              omega
            · injection h with h
              injection h with ha hb
              subst hb
              omega
          | Absent =>
            try simp only [] at h
            injection h with h
            injection h with ha hb
            subst hb
            omega
          | Error m i =>
            try simp only [] at h
            injection h with h
            injection h with ha hb
            subst hb
            omega
      · -- anything else: a number
        injection h with h
        have h1 : s' = (Parser.parse_number (Parser.skip_space s0)).2 := by
          rw [h]
        have := parse_number_len (Parser.skip_space s0)
        rw [h1]
        omega
    · -- parse_mul
      intro s0 r s' h
      simp only [Parser.parse_mul] at h
      rcases hc : Parser.parse_base n s0 with _ | ⟨r0, s1⟩
      · rw [hc] at h; cases h
      · rw [hc] at h
        have h1 := ihb _ _ _ hc
        have h2 := skip_space_len s1
        have h3 := skip_len (Parser.skip_space s1)
        cases r0 with
        | Present lhs =>
          try simp only [] at h
          split at h
          · -- no operator: return the left result
            injection h with h
            injection h with ha hb
            subst hb
            omega
          · -- an operator was selected: recurse on the right
            try simp only [] at h
            rcases hc2 : Parser.parse_mul n (Parser.skip (Parser.skip_space s1)) with _ | ⟨r2, s3⟩
            · rw [hc2] at h; cases h
            · rw [hc2] at h
              injection h with h
              injection h with ha hb
              subst hb
              have := ihm _ _ _ hc2
              omega
        | Absent =>
          try simp only [] at h
          injection h with h
          injection h with ha hb
          subst hb
          omega
        | Error m i =>
          try simp only [] at h
          injection h with h
          injection h with ha hb
          subst hb
          omega
    · -- parse_add
      intro s0 r s' h
      simp only [Parser.parse_add] at h
      rcases hc : Parser.parse_mul n s0 with _ | ⟨r0, s1⟩
      · rw [hc] at h; cases h
      · rw [hc] at h
        have h1 := ihm _ _ _ hc
        have h2 := skip_space_len s1
        have h3 := skip_len (Parser.skip_space s1)
        cases r0 with
        | Present lhs =>
          try simp only [] at h
          split at h
          · -- no operator: return the left result
            injection h with h
            injection h with ha hb
            subst hb
            omega
          · -- an operator was selected: recurse on the right
            try simp only [] at h
            rcases hc2 : Parser.parse_add n (Parser.skip (Parser.skip_space s1)) with _ | ⟨r2, s3⟩
            · rw [hc2] at h; cases h
            · rw [hc2] at h
              injection h with h
              injection h with ha hb
              subst hb
              have := iha _ _ _ hc2
              omega
        | Absent =>
          try simp only [] at h
          injection h with h
          injection h with ha hb
          subst hb
          omega
        | Error m i =>
          try simp only [] at h
          injection h with h
          injection h with ha hb
          subst hb
          omega

/-- Inversions of the dispatch classifiers. -/
theorem base_rule_minus {p : Option Char} (h : base_rule_of p = BaseRule.minus) :
    p = some '-' := by
  unfold base_rule_of at h
  split at h <;> first | rfl | assumption | cases h

theorem base_rule_plus {p : Option Char} (h : base_rule_of p = BaseRule.plus) :
    p = some '+' := by
  unfold base_rule_of at h
  split at h <;> first | rfl | assumption | cases h

theorem base_rule_paren {p : Option Char} (h : base_rule_of p = BaseRule.paren) :
    p = some '(' := by
  unfold base_rule_of at h
  split at h <;> first | rfl | assumption | cases h

theorem base_rule_bars {p : Option Char} (h : base_rule_of p = BaseRule.bars) :
    p = some '|' := by
  unfold base_rule_of at h
  split at h <;> first | rfl | assumption | cases h

theorem mul_op_of_some {p : Option Char} {op : MulOp} (h : mul_op_of p = some op) :
    ∃ c, p = some c := by
  unfold mul_op_of at h
  split at h <;> first | exact ⟨_, rfl⟩ | (next heq => exact ⟨_, heq⟩) | cases h

theorem add_op_of_some {p : Option Char} {op : AddOp} (h : add_op_of p = some op) :
    ∃ c, p = some c := by
  unfold add_op_of at h
  split at h <;> first | exact ⟨_, rfl⟩ | (next heq => exact ⟨_, heq⟩) | cases h

/-- A cursor whose lookahead is a character has a nonempty remainder. -/
theorem peek_some_len {s : Parser} {c : Char} (h : Parser.peek s = some c) :
    1 ≤ s.rest.length := by
  obtain ⟨r, hr, _⟩ := peek_some h
  rw [hr]
  simp

theorem skip_rest_length (s : Parser) :
    (Parser.skip s).rest.length = s.rest.length - 1 := by
  show s.rest.tail.length = _
  rw [List.length_tail]

/-- Fuel `3 * remaining + k` (with `k` = 1, 2, 3 for `base`, `mul`, `add`) is
enough for the descent to complete: the out-of-fuel branch is never taken. -/
theorem parse_total : ∀ n : Nat,
    (∀ s, 3 * s.rest.length + 1 ≤ n → (Parser.parse_base n s).isSome = true) ∧
    (∀ s, 3 * s.rest.length + 2 ≤ n → (Parser.parse_mul n s).isSome = true) ∧
    (∀ s, 3 * s.rest.length + 3 ≤ n → (Parser.parse_add n s).isSome = true) := by
  intro n
  induction n with
  | zero => refine ⟨?_, ?_, ?_⟩ <;> · intro s hle; omega
  | succ n ih =>
    obtain ⟨ihb, ihm, iha⟩ := ih
    refine ⟨?_, ?_, ?_⟩
    · -- parse_base
      intro s0 hle
      simp only [Parser.parse_base]
      have hss := skip_space_len s0
      have hsk := skip_rest_length (Parser.skip_space s0)
      split
      · -- minus sign
        next hpk =>
        have h1 := peek_some_len (base_rule_minus hpk)
        have := ihb (Parser.skip (Parser.skip_space s0)) (by omega)
        rcases Option.isSome_iff_exists.mp this with ⟨⟨r0, s1⟩, hc⟩
        rw [hc]
        rfl
      · -- plus sign
        next hpk =>
        have h1 := peek_some_len (base_rule_plus hpk)
        have := ihb (Parser.skip (Parser.skip_space s0)) (by omega)
        rcases Option.isSome_iff_exists.mp this with ⟨⟨r0, s1⟩, hc⟩
        rw [hc]
        rfl
      · -- opening parenthesis
        next hpk =>
        have h1 := peek_some_len (base_rule_paren hpk)
        have := iha (Parser.skip (Parser.skip_space s0)) (by omega)
        rcases Option.isSome_iff_exists.mp this with ⟨⟨r0, s1⟩, hc⟩
        rw [hc]
        cases r0 with
        | Present e => simp only []; split <;> rfl
        | Absent => rfl
        | Error m i => rfl
      · -- opening bar
        next hpk =>
        have h1 := peek_some_len (base_rule_bars hpk)
        have := iha (Parser.skip (Parser.skip_space s0)) (by omega)
        rcases Option.isSome_iff_exists.mp this with ⟨⟨r0, s1⟩, hc⟩
        rw [hc]
        cases r0 with
        | Present e => simp only []; split <;> rfl
        | Absent => rfl
        | Error m i => rfl
      · -- anything else: a number
        rfl
    · -- parse_mul
      intro s0 hle
      simp only [Parser.parse_mul]
      have := ihb s0 (by omega)
      rcases Option.isSome_iff_exists.mp this with ⟨⟨r0, s1⟩, hc⟩
      rw [hc]
      have hlen1 := (parse_len_mono n).1 _ _ _ hc
      cases r0 with
      | Present lhs =>
        simp only []
        have hss := skip_space_len s1
        have hsk := skip_rest_length (Parser.skip_space s1)
        split
        · rfl
        · next op' heq =>
          obtain ⟨c, hp⟩ := mul_op_of_some heq
          have h1 := peek_some_len hp
          have := ihm (Parser.skip (Parser.skip_space s1)) (by omega)
          rcases Option.isSome_iff_exists.mp this with ⟨⟨r2, s3⟩, hc2⟩
          rw [hc2]
          rfl
      | Absent => rfl
      | Error m i => rfl
    · -- parse_add
      intro s0 hle
      simp only [Parser.parse_add]
      have := ihm s0 (by omega)
      rcases Option.isSome_iff_exists.mp this with ⟨⟨r0, s1⟩, hc⟩
      rw [hc]
      have hlen1 := (parse_len_mono n).2.1 _ _ _ hc
      cases r0 with
      | Present lhs =>
        simp only []
        have hss := skip_space_len s1
        have hsk := skip_rest_length (Parser.skip_space s1)
        split
        · rfl
        · next op' heq =>
          obtain ⟨c, hp⟩ := add_op_of_some heq
          have h1 := peek_some_len hp
          have := iha (Parser.skip (Parser.skip_space s1)) (by omega)
          rcases Option.isSome_iff_exists.mp this with ⟨⟨r2, s3⟩, hc2⟩
          rw [hc2]
          rfl
      | Absent => rfl
      | Error m i => rfl

/-- The fuel which `parse` passes to `parse_add` is sufficient. -/
theorem parse_add_total (l : List Char) :
    (Parser.parse_add (parseFuel l) ⟨0, l⟩).isSome = true :=
  (parse_total (parseFuel l)).2.2 ⟨0, l⟩ (le_refl _)

/-! ### The cursor remainder is always the input dropped at the index -/

theorem dropWhile_eq_drop (p : Char → Bool) (l : List Char) :
    l.dropWhile p = l.drop (l.takeWhile p).length := by
  induction l with
  | nil => rfl
  | cons c r ih =>
    rw [List.dropWhile_cons, List.takeWhile_cons]
    cases h : p c with
    | true => simpa [h] using ih
    | false => simp [h]

theorem inv_skip {l : List Char} {s : Parser} (h : l.drop s.idx = s.rest) :
    l.drop (Parser.skip s).idx = (Parser.skip s).rest := by
  show l.drop (s.idx + 1) = s.rest.tail
  rw [← List.tail_drop, h]

theorem inv_skip_space {l : List Char} {s : Parser} (h : l.drop s.idx = s.rest) :
    l.drop (Parser.skip_space s).idx = (Parser.skip_space s).rest := by
  obtain ⟨i, rest⟩ := s
  rw [skip_space_eq]
  show l.drop (i + (rest.takeWhile is_sp).length) = rest.dropWhile is_sp
  rw [← List.drop_drop, h, ← dropWhile_eq_drop]

theorem inv_read_num {l : List Char} {s : Parser} (h : l.drop s.idx = s.rest) :
    l.drop (Parser.read_num s).2.idx = (Parser.read_num s).2.rest := by
  obtain ⟨i, rest⟩ := s
  rw [read_num_eq]
  show l.drop (i + (rest.takeWhile numB).length) = rest.dropWhile numB
  rw [← List.drop_drop, h, ← dropWhile_eq_drop]

theorem inv_parse_number {l : List Char} {s0 : Parser} (h : l.drop s0.idx = s0.rest) :
    l.drop (Parser.parse_number s0).2.idx = (Parser.parse_number s0).2.rest := by
  have h1 := inv_skip_space h
  simp only [Parser.parse_number]
  split
  · split <;> exact inv_read_num h1
  · exact h1

/-- The invariant "the remainder is the input dropped at the current index" is
preserved by every successful run of the descent. -/
theorem parse_inv (l : List Char) : ∀ n : Nat,
    (∀ s0 r s', Parser.parse_base n s0 = some (r, s') →
      l.drop s0.idx = s0.rest → l.drop s'.idx = s'.rest) ∧
    (∀ s0 r s', Parser.parse_mul n s0 = some (r, s') →
      l.drop s0.idx = s0.rest → l.drop s'.idx = s'.rest) ∧
    (∀ s0 r s', Parser.parse_add n s0 = some (r, s') →
      l.drop s0.idx = s0.rest → l.drop s'.idx = s'.rest) := by
  intro n
  induction n with
  | zero =>
    refine ⟨?_, ?_, ?_⟩ <;>
      · intro s0 r s' h hi
        simp only [Parser.parse_base, Parser.parse_mul, Parser.parse_add] at h
        exact Option.noConfusion h
  | succ n ih =>
    obtain ⟨ihb, ihm, iha⟩ := ih
    refine ⟨?_, ?_, ?_⟩
    · -- parse_base
      intro s0 r s' h hi
      have hi1 : l.drop (Parser.skip_space s0).idx = (Parser.skip_space s0).rest :=
        inv_skip_space hi
      have hi2 : l.drop (Parser.skip (Parser.skip_space s0)).idx =
          (Parser.skip (Parser.skip_space s0)).rest := inv_skip hi1
      simp only [Parser.parse_base] at h
      split at h
      · rcases hc : Parser.parse_base n (Parser.skip (Parser.skip_space s0)) with _ | ⟨r0, s1⟩
        · rw [hc] at h; cases h
        · rw [hc] at h
          injection h with h
          injection h with h1 h2
          subst h2
          exact ihb _ _ _ hc hi2
      · rcases hc : Parser.parse_base n (Parser.skip (Parser.skip_space s0)) with _ | ⟨r0, s1⟩
        · rw [hc] at h; cases h
        · rw [hc] at h
          injection h with h
          injection h with h1 h2
          subst h2
          exact ihb _ _ _ hc hi2
      · rcases hc : Parser.parse_add n (Parser.skip (Parser.skip_space s0)) with _ | ⟨r0, s1⟩
        · rw [hc] at h; cases h
        · rw [hc] at h
          have hiS1 := iha _ _ _ hc hi2
          cases r0 with
          | Present e =>
            try simp only [] at h
            split at h
            · injection h with h
              injection h with ha hb
              subst hb
              exact inv_skip_space hiS1
            · injection h with h
              injection h with ha hb
              subst hb
              exact inv_skip (inv_skip_space hiS1)
          | Absent =>
            try simp only [] at h
            injection h with h
            injection h with ha hb
            subst hb
            exact hiS1
          | Error m i =>
            try simp only [] at h
            injection h with h
            injection h with ha hb
            subst hb
            exact hiS1
      · rcases hc : Parser.parse_add n (Parser.skip (Parser.skip_space s0)) with _ | ⟨r0, s1⟩
        · rw [hc] at h; cases h
        · rw [hc] at h
          have hiS1 := iha _ _ _ hc hi2
          cases r0 with
          | Present e =>
            try simp only [] at h
            split at h
            · injection h with h
              injection h with ha hb
              subst hb
              exact inv_skip_space hiS1
            · injection h with h
              injection h with ha hb
              subst hb
              exact inv_skip (inv_skip_space hiS1)
          | Absent =>
            try simp only [] at h
            injection h with h
            injection h with ha hb
            subst hb
            exact hiS1
          | Error m i =>
            try simp only [] at h
            injection h with h
            injection h with ha hb
            subst hb
            exact hiS1
      · injection h with h
        have h1 : s' = (Parser.parse_number (Parser.skip_space s0)).2 := by rw [h]
        rw [h1]
        exact inv_parse_number hi1
    · -- parse_mul
      intro s0 r s' h hi
      simp only [Parser.parse_mul] at h
      rcases hc : Parser.parse_base n s0 with _ | ⟨r0, s1⟩
      · rw [hc] at h; cases h
      · rw [hc] at h
        have hiS1 := ihb _ _ _ hc hi
        cases r0 with
        | Present lhs =>
          try simp only [] at h
          split at h
          · injection h with h
            injection h with ha hb
            subst hb
            exact inv_skip_space hiS1
          · try simp only [] at h
            rcases hc2 : Parser.parse_mul n (Parser.skip (Parser.skip_space s1)) with _ | ⟨r2, s3⟩
            · rw [hc2] at h; cases h
            · rw [hc2] at h
              injection h with h
              injection h with ha hb
              subst hb
              exact ihm _ _ _ hc2 (inv_skip (inv_skip_space hiS1))
        | Absent =>
          try simp only [] at h
          injection h with h
          injection h with ha hb
          subst hb
          exact hiS1
        | Error m i =>
          try simp only [] at h
          injection h with h
          injection h with ha hb
          subst hb
          exact hiS1
    · -- parse_add
      intro s0 r s' h hi
      simp only [Parser.parse_add] at h
      rcases hc : Parser.parse_mul n s0 with _ | ⟨r0, s1⟩
      · rw [hc] at h; cases h
      · rw [hc] at h
        have hiS1 := ihm _ _ _ hc hi
        cases r0 with
        | Present lhs =>
          try simp only [] at h
          split at h
          · injection h with h
            injection h with ha hb
            subst hb
            exact inv_skip_space hiS1
          · try simp only [] at h
            rcases hc2 : Parser.parse_add n (Parser.skip (Parser.skip_space s1)) with _ | ⟨r2, s3⟩
            · rw [hc2] at h; cases h
            · rw [hc2] at h
              injection h with h
              injection h with ha hb
              subst hb
              exact iha _ _ _ hc2 (inv_skip (inv_skip_space hiS1))
        | Absent =>
          try simp only [] at h
          injection h with h
          injection h with ha hb
          subst hb
          exact hiS1
        | Error m i =>
          try simp only [] at h
          injection h with h
          injection h with ha hb
          subst hb
          exact hiS1

/-! ### Tokenisation: the whitespace-insensitive view of an input line -/

theorem numB_not_sp {c : Char} (h : numB c = true) : is_sp c = false := by
  cases hs : is_sp c with
  | false => rfl
  | true => rw [sp_not_numB hs] at h; exact absurd h (by decide)

/-- A token of the input line: a maximal run of number characters, or any
other single non-space character (including characters outside the grammar
and line terminators). -/
inductive Tok where
  | num : List Char → Tok
  | sym : Char → Tok
deriving DecidableEq

/-- Accumulator-based tokeniser; the accumulator holds the number run
currently being read, in reverse. -/
def tokAux : Option (List Char) → List Char → List Tok
  | none, [] => []
  | some run, [] => [Tok.num run.reverse]
  | none, c :: r =>
    if is_sp c then tokAux none r
    else if numB c then tokAux (some [c]) r
    else Tok.sym c :: tokAux none r
  | some run, c :: r =>
    if numB c then tokAux (some (c :: run)) r
    else if is_sp c then Tok.num run.reverse :: tokAux none r
    else Tok.num run.reverse :: Tok.sym c :: tokAux none r

/-- The token sequence of an input line: spaces and tabs dropped, maximal
runs of number characters grouped.  Two lines tokenising equally differ only
in the spaces and tabs between tokens. -/
def tokenize (l : List Char) : List Tok := tokAux none l

theorem tokAux_some_eq (l : List Char) : ∀ run : List Char,
    tokAux (some run) l =
      Tok.num (run.reverse ++ l.takeWhile numB) :: tokenize (l.dropWhile numB) := by
  induction l with
  | nil => intro run; simp [tokAux, tokenize, List.takeWhile, List.dropWhile]
  | cons c r ih =>
    intro run
    cases hn : numB c with
    | true =>
      simp [tokAux, hn, ih, tokenize, List.takeWhile_cons_of_pos,
        List.dropWhile_cons_of_pos, List.append_assoc]
    | false =>
      cases hs : is_sp c with
      | true =>
        simp [tokAux, hn, hs, tokenize, List.takeWhile_cons_of_neg,
          List.dropWhile_cons_of_neg]
      | false =>
        simp [tokAux, hn, hs, tokenize, List.takeWhile_cons_of_neg,
          List.dropWhile_cons_of_neg]

theorem tokenize_cons_sp {c : Char} {r : List Char} (h : is_sp c = true) :
    tokenize (c :: r) = tokenize r := by
  simp [tokenize, tokAux, h]

theorem tokenize_cons_num {c : Char} {r : List Char} (h : numB c = true) :
    tokenize (c :: r) = Tok.num (c :: r.takeWhile numB) :: tokenize (r.dropWhile numB) := by
  have hs : is_sp c = false := numB_not_sp h
  simp [tokenize, tokAux, h, hs, tokAux_some_eq]

theorem tokenize_cons_sym {c : Char} {r : List Char} (h1 : is_sp c = false)
    (h2 : numB c = false) : tokenize (c :: r) = Tok.sym c :: tokenize r := by
  simp [tokenize, tokAux, h1, h2]

theorem tokenize_dropWhile_sp (l : List Char) :
    tokenize (l.dropWhile is_sp) = tokenize l := by
  induction l with
  | nil => rfl
  | cons c r ih =>
    cases hs : is_sp c with
    | true => rw [List.dropWhile_cons_of_pos hs, ih, tokenize_cons_sp hs]
    | false => rw [List.dropWhile_cons_of_neg (by simp [hs])]

/-- The first token of a line determines the first non-space character. -/
theorem tokenize_shape (l : List Char) :
    (l.dropWhile is_sp = [] ∧ tokenize l = []) ∨
    (∃ c r, l.dropWhile is_sp = c :: r ∧ numB c = true ∧
      tokenize l = Tok.num (c :: r.takeWhile numB) :: tokenize (r.dropWhile numB)) ∨
    (∃ c r, l.dropWhile is_sp = c :: r ∧ is_sp c = false ∧ numB c = false ∧
      tokenize l = Tok.sym c :: tokenize r) := by
  induction l with
  | nil => left; exact ⟨rfl, rfl⟩
  | cons c r ih =>
    cases hs : is_sp c with
    | true =>
      rw [List.dropWhile_cons_of_pos hs, tokenize_cons_sp hs]
      exact ih
    | false =>
      rw [List.dropWhile_cons_of_neg (by simp [hs])]
      cases hn : numB c with
      | true => exact Or.inr (Or.inl ⟨c, r, rfl, hn, tokenize_cons_num hn⟩)
      | false => exact Or.inr (Or.inr ⟨c, r, rfl, hs, hn, tokenize_cons_sym hs hn⟩)

/-- Two lines with equal token sequences align: both are blank, or they agree
on the first non-space character, and either it opens number runs that agree
(with equally-tokenising remainders), or it is a symbol with equally-tokenising
tails. -/
theorem sim_align {l₁ l₂ : List Char} (h : tokenize l₁ = tokenize l₂) :
    (l₁.dropWhile is_sp = [] ∧ l₂.dropWhile is_sp = []) ∨
    (∃ c r₁ r₂, l₁.dropWhile is_sp = c :: r₁ ∧ l₂.dropWhile is_sp = c :: r₂ ∧
      is_sp c = false ∧
      ((numB c = true ∧ r₁.takeWhile numB = r₂.takeWhile numB ∧
          tokenize (r₁.dropWhile numB) = tokenize (r₂.dropWhile numB)) ∨
       (numB c = false ∧ tokenize r₁ = tokenize r₂))) := by
  rcases tokenize_shape l₁ with ⟨d1, t1⟩ | ⟨c1, r1, d1, n1, t1⟩ | ⟨c1, r1, d1, s1, n1, t1⟩ <;>
    rcases tokenize_shape l₂ with ⟨d2, t2⟩ | ⟨c2, r2, d2, n2, t2⟩ | ⟨c2, r2, d2, s2, n2, t2⟩ <;>
    rw [t1, t2] at h
  · exact Or.inl ⟨d1, d2⟩
  · cases h
  · cases h
  · cases h
  · -- number token on both sides
    injection h with h1 h2
    injection h1 with h1
    injection h1 with hc ht
    subst hc
    exact Or.inr ⟨c1, r1, r2, d1, d2, numB_not_sp n1, Or.inl ⟨n1, ht, h2⟩⟩
  · injection h with h1 h2; cases h1
  · cases h
  · injection h with h1 h2; cases h1
  · -- symbol token on both sides
    injection h with h1 h2
    injection h1 with hc
    subst hc
    exact Or.inr ⟨c1, r1, r2, d1, d2, s1, Or.inr ⟨n1, h2⟩⟩

/-- Lines tokenising equally have equal lookaheads after space skipping, and
their space-skipped remainders still tokenise equally. -/
theorem skip_space_sim {s₁ s₂ : Parser} (h : tokenize s₁.rest = tokenize s₂.rest) :
    (Parser.skip_space s₁).peek = (Parser.skip_space s₂).peek ∧
    tokenize (Parser.skip_space s₁).rest = tokenize (Parser.skip_space s₂).rest := by
  obtain ⟨i₁, l₁⟩ := s₁
  obtain ⟨i₂, l₂⟩ := s₂
  simp only at h
  rw [skip_space_eq, skip_space_eq]
  constructor
  · rcases sim_align h with ⟨d1, d2⟩ | ⟨c, r₁, r₂, d1, d2, hsp, _⟩
    · show Parser.peek ⟨_, l₁.dropWhile is_sp⟩ = Parser.peek ⟨_, l₂.dropWhile is_sp⟩
      rw [d1, d2]
      rfl
    · show Parser.peek ⟨_, l₁.dropWhile is_sp⟩ = Parser.peek ⟨_, l₂.dropWhile is_sp⟩
      rw [d1, d2, peek_cons, peek_cons]
  · show tokenize (l₁.dropWhile is_sp) = tokenize (l₂.dropWhile is_sp)
    rw [tokenize_dropWhile_sp, tokenize_dropWhile_sp]
    exact h

/-- Skipping the same non-space, non-number character on both sides preserves
equal tokenisation. -/
theorem tok_skip {s₁ s₂ : Parser} {c : Char} (h : tokenize s₁.rest = tokenize s₂.rest)
    (h₁ : s₁.peek = some c) (h₂ : s₂.peek = some c)
    (hsp : is_sp c = false) (hnb : numB c = false) :
    tokenize (Parser.skip s₁).rest = tokenize (Parser.skip s₂).rest := by
  obtain ⟨ra, hra, _⟩ := peek_some h₁
  obtain ⟨rb, hrb, _⟩ := peek_some h₂
  show tokenize s₁.rest.tail = tokenize s₂.rest.tail
  rw [hra, hrb] at h ⊢
  rw [tokenize_cons_sym hsp hnb, tokenize_cons_sym hsp hnb] at h
  injection h

/-! ### The whitespace simulation -/

/-- Result similarity: same variant, and equal trees when both are
`Present` (error positions may differ). -/
def ParseResult.sim : ParseResult → ParseResult → Prop
  | ParseResult.Present e1, ParseResult.Present e2 => e1 = e2
  | ParseResult.Absent, ParseResult.Absent => True
  | ParseResult.Error _ _, ParseResult.Error _ _ => True
  | _, _ => False

theorem sim_map {r₁ r₂ : ParseResult} (f : Expression → Expression)
    (h : ParseResult.sim r₁ r₂) : ParseResult.sim (r₁.map f) (r₂.map f) := by
  cases r₁ <;> cases r₂ <;> simp_all [ParseResult.sim, ParseResult.map]

theorem mul_op_char {p : Option Char} {op : MulOp} (h : mul_op_of p = some op) :
    ∃ c, p = some c ∧ is_sp c = false ∧ numB c = false := by
  unfold mul_op_of at h
  split at h <;> first | exact ⟨_, rfl, by decide, by decide⟩ | cases h

theorem add_op_char {p : Option Char} {op : AddOp} (h : add_op_of p = some op) :
    ∃ c, p = some c ∧ is_sp c = false ∧ numB c = false := by
  unfold add_op_of at h
  split at h <;> first | exact ⟨_, rfl, by decide, by decide⟩ | cases h

/-- A failed closing-check condition pins the lookahead to the closer. -/
theorem close_cond_false {p : Option Char} {c : Char}
    (h : ¬ ((p.map fun ch => ch != c).getD true = true)) : p = some c := by
  cases p with
  | none => simp at h
  | some c' =>
    simp only [Option.map_some', Option.getD_some, bne_iff_ne, ne_eq] at h
    rw [not_not] at h
    rw [h]

/-- `parse_number` on equally-tokenising cursors: similar results and
equally-tokenising final cursors. -/
theorem parse_number_sim {s₁ s₂ : Parser} (h : tokenize s₁.rest = tokenize s₂.rest) :
    ParseResult.sim (Parser.parse_number s₁).1 (Parser.parse_number s₂).1 ∧
    tokenize (Parser.parse_number s₁).2.rest = tokenize (Parser.parse_number s₂).2.rest := by
  obtain ⟨i₁, l₁⟩ := s₁
  obtain ⟨i₂, l₂⟩ := s₂
  simp only at h
  simp only [Parser.parse_number, skip_space_eq, read_num_eq]
  rcases sim_align h with ⟨d1, d2⟩ | ⟨c, r₁, r₂, d1, d2, hsp, hrest⟩
  · rw [d1, d2]
    exact ⟨trivial, rfl⟩
  · rw [d1, d2, _is_number_char_peek, _is_number_char_peek]
    rcases hrest with ⟨hnum, hruns, htok⟩ | ⟨hnum, htok⟩
    · rw [if_pos hnum, if_pos hnum]
      rw [List.takeWhile_cons_of_pos hnum, List.takeWhile_cons_of_pos hnum,
        List.dropWhile_cons_of_pos hnum, List.dropWhile_cons_of_pos hnum, hruns]
      rcases parse_f64 (c :: List.takeWhile numB r₂) with _ | v
      · exact ⟨trivial, htok⟩
      · exact ⟨rfl, htok⟩
    · rw [if_neg (by simp [hnum]), if_neg (by simp [hnum])]
      refine ⟨trivial, ?_⟩
      rw [tokenize_cons_sym hsp hnum, tokenize_cons_sym hsp hnum, htok]

/-- Whitespace idempotence at the level of the three descent functions, with
arbitrary fuel on each side: on cursors whose remainders tokenise equally,
whenever both runs complete they produce similar results and cursors whose
remainders again tokenise equally. -/
theorem parse_sim : ∀ n₁ : Nat, ∀ n₂ : Nat, ∀ s₁ s₂ : Parser,
    tokenize s₁.rest = tokenize s₂.rest →
    (∀ r₁ t₁ r₂ t₂, Parser.parse_base n₁ s₁ = some (r₁, t₁) →
        Parser.parse_base n₂ s₂ = some (r₂, t₂) →
        ParseResult.sim r₁ r₂ ∧ tokenize t₁.rest = tokenize t₂.rest) ∧
    (∀ r₁ t₁ r₂ t₂, Parser.parse_mul n₁ s₁ = some (r₁, t₁) →
        Parser.parse_mul n₂ s₂ = some (r₂, t₂) →
        ParseResult.sim r₁ r₂ ∧ tokenize t₁.rest = tokenize t₂.rest) ∧
    (∀ r₁ t₁ r₂ t₂, Parser.parse_add n₁ s₁ = some (r₁, t₁) →
        Parser.parse_add n₂ s₂ = some (r₂, t₂) →
        ParseResult.sim r₁ r₂ ∧ tokenize t₁.rest = tokenize t₂.rest) := by
  intro n₁
  induction n₁ with
  | zero =>
    intro n₂ s₁ s₂ h
    refine ⟨?_, ?_, ?_⟩ <;>
      · intro r₁ t₁ r₂ t₂ h₁ h₂
        simp only [Parser.parse_base, Parser.parse_mul, Parser.parse_add] at h₁
        exact Option.noConfusion h₁
  | succ n ih =>
    intro n₂ s₁ s₂ h
    cases n₂ with
    | zero =>
      refine ⟨?_, ?_, ?_⟩ <;>
        · intro r₁ t₁ r₂ t₂ h₁ h₂
          simp only [Parser.parse_base, Parser.parse_mul, Parser.parse_add] at h₂
          exact Option.noConfusion h₂
    | succ m =>
      obtain ⟨hpeq, hS⟩ := skip_space_sim h
      refine ⟨?_, ?_, ?_⟩
      · -- parse_base
        intro r₁ t₁ r₂ t₂ h₁ h₂
        simp only [Parser.parse_base] at h₁ h₂
        rw [← hpeq] at h₂
        cases hbr : base_rule_of (Parser.skip_space s₁).peek with
        | minus =>
          rw [hbr] at h₁ h₂
          have hp₁ := base_rule_minus hbr
          have hp₂ : (Parser.skip_space s₂).peek = some '-' := by rw [← hpeq]; exact hp₁
          have hRsk := tok_skip hS hp₁ hp₂ (by decide) (by decide)
          rcases hc₁ : Parser.parse_base n (Parser.skip (Parser.skip_space s₁)) with _ | ⟨ra, ta⟩
          · rw [hc₁] at h₁; cases h₁
          rcases hc₂ : Parser.parse_base m (Parser.skip (Parser.skip_space s₂)) with _ | ⟨rb, tb⟩
          · rw [hc₂] at h₂; cases h₂
          rw [hc₁] at h₁
          rw [hc₂] at h₂
          injection h₁ with h₁
          injection h₁ with ha₁ hb₁
          injection h₂ with h₂
          injection h₂ with ha₂ hb₂
          subst hb₁; subst hb₂; subst ha₁; subst ha₂
          obtain ⟨hsim, htok⟩ := (ih m _ _ hRsk).1 ra ta rb tb hc₁ hc₂
          exact ⟨sim_map _ hsim, htok⟩
        | plus =>
          rw [hbr] at h₁ h₂
          have hp₁ := base_rule_plus hbr
          have hp₂ : (Parser.skip_space s₂).peek = some '+' := by rw [← hpeq]; exact hp₁
          have hRsk := tok_skip hS hp₁ hp₂ (by decide) (by decide)
          rcases hc₁ : Parser.parse_base n (Parser.skip (Parser.skip_space s₁)) with _ | ⟨ra, ta⟩
          · rw [hc₁] at h₁; cases h₁
          rcases hc₂ : Parser.parse_base m (Parser.skip (Parser.skip_space s₂)) with _ | ⟨rb, tb⟩
          · rw [hc₂] at h₂; cases h₂
          rw [hc₁] at h₁
          rw [hc₂] at h₂
          injection h₁ with h₁
          injection h₁ with ha₁ hb₁
          injection h₂ with h₂
          injection h₂ with ha₂ hb₂
          subst hb₁; subst hb₂; subst ha₁; subst ha₂
          obtain ⟨hsim, htok⟩ := (ih m _ _ hRsk).1 ra ta rb tb hc₁ hc₂
          exact ⟨sim_map _ hsim, htok⟩
        | paren =>
          rw [hbr] at h₁ h₂
          have hp₁ := base_rule_paren hbr
          have hp₂ : (Parser.skip_space s₂).peek = some '(' := by rw [← hpeq]; exact hp₁
          have hRsk := tok_skip hS hp₁ hp₂ (by decide) (by decide)
          rcases hc₁ : Parser.parse_add n (Parser.skip (Parser.skip_space s₁)) with _ | ⟨ra, ta⟩
          · rw [hc₁] at h₁; cases h₁
          rcases hc₂ : Parser.parse_add m (Parser.skip (Parser.skip_space s₂)) with _ | ⟨rb, tb⟩
          · rw [hc₂] at h₂; cases h₂
          rw [hc₁] at h₁
          rw [hc₂] at h₂
          obtain ⟨hsim, htok⟩ := (ih m _ _ hRsk).2.2 ra ta rb tb hc₁ hc₂
          cases ra with
          | Present e₁ =>
            cases rb with
            | Present e₂ =>
              have he : e₁ = e₂ := hsim
              subst he
              obtain ⟨hpeq', hS'⟩ := skip_space_sim htok
              try simp only [] at h₁ h₂
              rw [← hpeq'] at h₂
              by_cases hcp : ((Parser.skip_space ta).peek.map fun ch => ch != ')').getD true = true
              · rw [if_pos hcp] at h₁ h₂
                injection h₁ with h₁
                injection h₁ with ha₁ hb₁
                injection h₂ with h₂
                injection h₂ with ha₂ hb₂
                subst hb₁; subst hb₂; subst ha₁; subst ha₂
                exact ⟨trivial, hS'⟩
              · rw [if_neg hcp] at h₁ h₂
                have hq₁ := close_cond_false hcp
                have hq₂ : (Parser.skip_space tb).peek = some ')' := by
                  rw [← hpeq']; exact hq₁
                injection h₁ with h₁
                injection h₁ with ha₁ hb₁
                injection h₂ with h₂
                injection h₂ with ha₂ hb₂
                subst hb₁; subst hb₂; subst ha₁; subst ha₂
                exact ⟨rfl, tok_skip hS' hq₁ hq₂ (by decide) (by decide)⟩
            | Absent => exact hsim.elim
            | Error m2 i2 => exact hsim.elim
          | Absent =>
            cases rb with
            | Present e₂ => exact hsim.elim
            | Absent =>
              try simp only [] at h₁ h₂
              injection h₁ with h₁
              injection h₁ with ha₁ hb₁
              injection h₂ with h₂
              injection h₂ with ha₂ hb₂
              subst hb₁; subst hb₂; subst ha₁; subst ha₂
              exact ⟨trivial, htok⟩
            | Error m2 i2 => exact hsim.elim
          | Error m1 i1 =>
            cases rb with
            | Present e₂ => exact hsim.elim
            | Absent => exact hsim.elim
            | Error m2 i2 =>
              try simp only [] at h₁ h₂
              injection h₁ with h₁
              injection h₁ with ha₁ hb₁
              injection h₂ with h₂
              injection h₂ with ha₂ hb₂
              subst hb₁; subst hb₂; subst ha₁; subst ha₂
              exact ⟨trivial, htok⟩
        | bars =>
          rw [hbr] at h₁ h₂
          have hp₁ := base_rule_bars hbr
          have hp₂ : (Parser.skip_space s₂).peek = some '|' := by rw [← hpeq]; exact hp₁
          have hRsk := tok_skip hS hp₁ hp₂ (by decide) (by decide)
          rcases hc₁ : Parser.parse_add n (Parser.skip (Parser.skip_space s₁)) with _ | ⟨ra, ta⟩
          · rw [hc₁] at h₁; cases h₁
          rcases hc₂ : Parser.parse_add m (Parser.skip (Parser.skip_space s₂)) with _ | ⟨rb, tb⟩
          · rw [hc₂] at h₂; cases h₂
          rw [hc₁] at h₁
          rw [hc₂] at h₂
          obtain ⟨hsim, htok⟩ := (ih m _ _ hRsk).2.2 ra ta rb tb hc₁ hc₂
          cases ra with
          | Present e₁ =>
            cases rb with
            | Present e₂ =>
              have he : e₁ = e₂ := hsim
              subst he
              obtain ⟨hpeq', hS'⟩ := skip_space_sim htok
              try simp only [] at h₁ h₂
              rw [← hpeq'] at h₂
              by_cases hcp : ((Parser.skip_space ta).peek.map fun ch => ch != '|').getD true = true
              · rw [if_pos hcp] at h₁ h₂
                injection h₁ with h₁
                injection h₁ with ha₁ hb₁
                injection h₂ with h₂
                injection h₂ with ha₂ hb₂
                subst hb₁; subst hb₂; subst ha₁; subst ha₂
                exact ⟨trivial, hS'⟩
              · rw [if_neg hcp] at h₁ h₂
                have hq₁ := close_cond_false hcp
                have hq₂ : (Parser.skip_space tb).peek = some '|' := by
                  rw [← hpeq']; exact hq₁
                injection h₁ with h₁
                injection h₁ with ha₁ hb₁
                injection h₂ with h₂
                injection h₂ with ha₂ hb₂
                subst hb₁; subst hb₂; subst ha₁; subst ha₂
                exact ⟨rfl, tok_skip hS' hq₁ hq₂ (by decide) (by decide)⟩
            | Absent => exact hsim.elim
            | Error m2 i2 => exact hsim.elim
          | Absent =>
            cases rb with
            | Present e₂ => exact hsim.elim
            | Absent =>
              try simp only [] at h₁ h₂
              injection h₁ with h₁
              injection h₁ with ha₁ hb₁
              injection h₂ with h₂
              injection h₂ with ha₂ hb₂
              subst hb₁; subst hb₂; subst ha₁; subst ha₂
              exact ⟨trivial, htok⟩
            | Error m1 i1 => exact hsim.elim
          | Error m1 i1 =>
            cases rb with
            | Present e₂ => exact hsim.elim
            | Absent => exact hsim.elim
            | Error m2 i2 =>
              try simp only [] at h₁ h₂
              injection h₁ with h₁
              injection h₁ with ha₁ hb₁
              injection h₂ with h₂
              injection h₂ with ha₂ hb₂
              subst hb₁; subst hb₂; subst ha₁; subst ha₂
              exact ⟨trivial, htok⟩
        | number =>
          rw [hbr] at h₁ h₂
          injection h₁ with h₁
          injection h₂ with h₂
          obtain ⟨hsim, htok⟩ := parse_number_sim hS
          have hr₁ : r₁ = (Parser.parse_number (Parser.skip_space s₁)).1 := by rw [h₁]
          have ht₁ : t₁ = (Parser.parse_number (Parser.skip_space s₁)).2 := by rw [h₁]
          have hr₂ : r₂ = (Parser.parse_number (Parser.skip_space s₂)).1 := by rw [h₂]
          have ht₂ : t₂ = (Parser.parse_number (Parser.skip_space s₂)).2 := by rw [h₂]
          rw [hr₁, hr₂, ht₁, ht₂]
          exact ⟨hsim, htok⟩
      · -- parse_mul
        intro r₁ t₁ r₂ t₂ h₁ h₂
        simp only [Parser.parse_mul] at h₁ h₂
        rcases hc₁ : Parser.parse_base n s₁ with _ | ⟨ra, ta⟩
        · rw [hc₁] at h₁; cases h₁
        rcases hc₂ : Parser.parse_base m s₂ with _ | ⟨rb, tb⟩
        · rw [hc₂] at h₂; cases h₂
        rw [hc₁] at h₁
        rw [hc₂] at h₂
        obtain ⟨hsim, htok⟩ := (ih m _ _ h).1 ra ta rb tb hc₁ hc₂
        cases ra with
        | Present lhs₁ =>
          cases rb with
          | Present lhs₂ =>
            have he : lhs₁ = lhs₂ := hsim
            subst he
            obtain ⟨hpeq', hS'⟩ := skip_space_sim htok
            try simp only [] at h₁ h₂
            rw [← hpeq'] at h₂
            rcases hop : mul_op_of (Parser.skip_space ta).peek with _ | op
            · rw [hop] at h₁ h₂
              injection h₁ with h₁
              injection h₁ with ha₁ hb₁
              injection h₂ with h₂
              injection h₂ with ha₂ hb₂
              subst hb₁; subst hb₂; subst ha₁; subst ha₂
              exact ⟨rfl, hS'⟩
            · rw [hop] at h₁ h₂
              obtain ⟨c, hq₁, hcs, hcn⟩ := mul_op_char hop
              have hq₂ : (Parser.skip_space tb).peek = some c := by rw [← hpeq']; exact hq₁
              have hRsk := tok_skip hS' hq₁ hq₂ hcs hcn
              rcases hc₃ : Parser.parse_mul n (Parser.skip (Parser.skip_space ta)) with _ | ⟨rc, tc⟩
              · rw [hc₃] at h₁; cases h₁
              rcases hc₄ : Parser.parse_mul m (Parser.skip (Parser.skip_space tb)) with _ | ⟨rd, td⟩
              · rw [hc₄] at h₂; cases h₂
              rw [hc₃] at h₁
              rw [hc₄] at h₂
              injection h₁ with h₁
              injection h₁ with ha₁ hb₁
              injection h₂ with h₂
              injection h₂ with ha₂ hb₂
              subst hb₁; subst hb₂; subst ha₁; subst ha₂
              obtain ⟨hsim₂, htok₂⟩ := (ih m _ _ hRsk).2.1 rc tc rd td hc₃ hc₄
              exact ⟨sim_map _ hsim₂, htok₂⟩
          | Absent => exact hsim.elim
          | Error m2 i2 => exact hsim.elim
        | Absent =>
          cases rb with
          | Present lhs₂ => exact hsim.elim
          | Absent =>
            try simp only [] at h₁ h₂
            injection h₁ with h₁
            injection h₁ with ha₁ hb₁
            injection h₂ with h₂
            injection h₂ with ha₂ hb₂
            subst hb₁; subst hb₂; subst ha₁; subst ha₂
            exact ⟨trivial, htok⟩
          | Error m2 i2 => exact hsim.elim
        | Error m1 i1 =>
          cases rb with
          | Present lhs₂ => exact hsim.elim
          | Absent => exact hsim.elim
          | Error m2 i2 =>
            try simp only [] at h₁ h₂
            injection h₁ with h₁
            injection h₁ with ha₁ hb₁
            injection h₂ with h₂
            injection h₂ with ha₂ hb₂
            subst hb₁; subst hb₂; subst ha₁; subst ha₂
            exact ⟨trivial, htok⟩
      · -- parse_add
        intro r₁ t₁ r₂ t₂ h₁ h₂
        simp only [Parser.parse_add] at h₁ h₂
        rcases hc₁ : Parser.parse_mul n s₁ with _ | ⟨ra, ta⟩
        · rw [hc₁] at h₁; cases h₁
        rcases hc₂ : Parser.parse_mul m s₂ with _ | ⟨rb, tb⟩
        · rw [hc₂] at h₂; cases h₂
        rw [hc₁] at h₁
        rw [hc₂] at h₂
        obtain ⟨hsim, htok⟩ := (ih m _ _ h).2.1 ra ta rb tb hc₁ hc₂
        cases ra with
        | Present lhs₁ =>
          cases rb with
          | Present lhs₂ =>
            have he : lhs₁ = lhs₂ := hsim
            subst he
            obtain ⟨hpeq', hS'⟩ := skip_space_sim htok
            try simp only [] at h₁ h₂
            rw [← hpeq'] at h₂
            rcases hop : add_op_of (Parser.skip_space ta).peek with _ | op
            · rw [hop] at h₁ h₂
              injection h₁ with h₁
              injection h₁ with ha₁ hb₁
              injection h₂ with h₂
              injection h₂ with ha₂ hb₂
              subst hb₁; subst hb₂; subst ha₁; subst ha₂
              exact ⟨rfl, hS'⟩
            · rw [hop] at h₁ h₂
              obtain ⟨c, hq₁, hcs, hcn⟩ := add_op_char hop
              have hq₂ : (Parser.skip_space tb).peek = some c := by rw [← hpeq']; exact hq₁
              have hRsk := tok_skip hS' hq₁ hq₂ hcs hcn
              rcases hc₃ : Parser.parse_add n (Parser.skip (Parser.skip_space ta)) with _ | ⟨rc, tc⟩
              · rw [hc₃] at h₁; cases h₁
              rcases hc₄ : Parser.parse_add m (Parser.skip (Parser.skip_space tb)) with _ | ⟨rd, td⟩
              · rw [hc₄] at h₂; cases h₂
              rw [hc₃] at h₁
              rw [hc₄] at h₂
              injection h₁ with h₁
              injection h₁ with ha₁ hb₁
              injection h₂ with h₂
              injection h₂ with ha₂ hb₂
              subst hb₁; subst hb₂; subst ha₁; subst ha₂
              obtain ⟨hsim₂, htok₂⟩ := (ih m _ _ hRsk).2.2 rc tc rd td hc₃ hc₄
              exact ⟨sim_map _ hsim₂, htok₂⟩
          | Absent => exact hsim.elim
          | Error m2 i2 => exact hsim.elim
        | Absent =>
          cases rb with
          | Present lhs₂ => exact hsim.elim
          | Absent =>
            try simp only [] at h₁ h₂
            injection h₁ with h₁
            injection h₁ with ha₁ hb₁
            injection h₂ with h₂
            injection h₂ with ha₂ hb₂
            subst hb₁; subst hb₂; subst ha₁; subst ha₂
            exact ⟨trivial, htok⟩
          | Error m2 i2 => exact hsim.elim
        | Error m1 i1 =>
          cases rb with
          | Present lhs₂ => exact hsim.elim
          | Absent => exact hsim.elim
          | Error m2 i2 =>
            try simp only [] at h₁ h₂
            injection h₁ with h₁
            injection h₁ with ha₁ hb₁
            injection h₂ with h₂
            injection h₂ with ha₂ hb₂
            subst hb₁; subst hb₂; subst ha₁; subst ha₂
            exact ⟨trivial, htok⟩

/-! ### Line terminators behave exactly like end of input -/

/-- The input before its first line terminator. -/
def truncNL (l : List Char) : List Char := l.takeWhile fun c => !isNL c

/-- A cursor with everything from the first line terminator onwards removed. -/
def Parser.trunc (s : Parser) : Parser := ⟨s.idx, truncNL s.rest⟩

theorem sp_not_NL {c : Char} (h : is_sp c = true) : isNL c = false := by
  rcases Bool.or_eq_true_iff.mp h with h' | h' <;>
    · rw [show c = _ from of_decide_eq_true h']; decide

theorem truncNL_append_NL (l t : List Char) {c : Char} (h : isNL c = true) :
    truncNL (l ++ c :: t) = truncNL l := by
  induction l with
  | nil => simp [truncNL, List.takeWhile_cons, h]
  | cons a r ih =>
    unfold truncNL at ih ⊢
    rw [List.cons_append, List.takeWhile_cons, List.takeWhile_cons]
    cases hna : (!isNL a) with
    | true => simp only [if_pos, ih]
    | false => simp only [Bool.false_eq_true, if_false]

theorem peek_trunc (s : Parser) : s.trunc.peek = s.peek := by
  obtain ⟨i, l⟩ := s
  cases l with
  | nil => rfl
  | cons c r =>
    show Parser.peek ⟨i, truncNL (c :: r)⟩ = Parser.peek ⟨i, c :: r⟩
    unfold truncNL
    rw [List.takeWhile_cons]
    cases hn : isNL c with
    | true =>
      rw [if_neg (by simp [hn])]
      rw [peek_cons, if_pos (by simp [hn])]
      rfl
    | false =>
      rw [if_pos (by simp [hn])]
      rw [peek_cons, peek_cons]

theorem skip_trunc {s : Parser} {c : Char} (h : s.peek = some c) :
    Parser.skip s.trunc = (Parser.skip s).trunc := by
  obtain ⟨r, hr, hnl⟩ := peek_some h
  obtain ⟨i, l⟩ := s
  simp only at hr
  subst hr
  show Parser.skip ⟨i, truncNL (c :: r)⟩ = Parser.mk (i + 1) (truncNL r)
  unfold truncNL
  rw [List.takeWhile_cons, if_pos (by simp [hnl])]
  rfl

theorem takeWhile_truncNL (p : Char → Bool) (hp : ∀ c, p c = true → isNL c = false)
    (l : List Char) : (truncNL l).takeWhile p = l.takeWhile p := by
  induction l with
  | nil => rfl
  | cons c r ih =>
    unfold truncNL at ih ⊢
    rw [List.takeWhile_cons]
    cases hn : isNL c with
    | true =>
      rw [if_neg (by simp [hn])]
      have hpc : p c = false := by
        cases hpc : p c with
        | false => rfl
        | true => rw [hp c hpc] at hn; cases hn
      simp [List.takeWhile_cons, hpc]
    | false =>
      rw [if_pos (by simp [hn])]
      rw [List.takeWhile_cons, List.takeWhile_cons]
      cases hpc : p c with
      | true => simp [hpc, ih]
      | false => simp [hpc]

theorem dropWhile_truncNL (p : Char → Bool) (hp : ∀ c, p c = true → isNL c = false)
    (l : List Char) : (truncNL l).dropWhile p = truncNL (l.dropWhile p) := by
  induction l with
  | nil => rfl
  | cons c r ih =>
    unfold truncNL at ih ⊢
    rw [List.takeWhile_cons]
    cases hn : isNL c with
    | true =>
      rw [if_neg (by simp [hn])]
      have hpc : p c = false := by
        cases hpc : p c with
        | false => rfl
        | true => rw [hp c hpc] at hn; cases hn
      simp [List.dropWhile_cons, hpc, List.takeWhile_cons, hn]
    | false =>
      rw [if_pos (by simp [hn])]
      rw [List.dropWhile_cons, List.dropWhile_cons]
      cases hpc : p c with
      | true => simp [hpc, ih]
      | false => simp [hpc, truncNL, List.takeWhile_cons, hn]

theorem skip_space_trunc (s : Parser) :
    Parser.skip_space s.trunc = (Parser.skip_space s).trunc := by
  obtain ⟨i, l⟩ := s
  show Parser.skip_space ⟨i, truncNL l⟩ = Parser.trunc (Parser.skip_space ⟨i, l⟩)
  rw [skip_space_eq, skip_space_eq]
  unfold Parser.trunc
  simp only
  rw [takeWhile_truncNL is_sp (fun c h => sp_not_NL h) l,
    dropWhile_truncNL is_sp (fun c h => sp_not_NL h) l]

theorem read_num_trunc (s : Parser) :
    Parser.read_num s.trunc = ((Parser.read_num s).1, (Parser.read_num s).2.trunc) := by
  obtain ⟨i, l⟩ := s
  show Parser.read_num ⟨i, truncNL l⟩ = _
  rw [read_num_eq, read_num_eq]
  unfold Parser.trunc
  simp only
  rw [takeWhile_truncNL numB (fun c h => numB_not_NL h) l,
    dropWhile_truncNL numB (fun c h => numB_not_NL h) l]

theorem parse_number_trunc (s : Parser) :
    Parser.parse_number s.trunc =
      ((Parser.parse_number s).1, (Parser.parse_number s).2.trunc) := by
  simp only [Parser.parse_number]
  rw [skip_space_trunc, peek_trunc, read_num_trunc]
  have hidx : (Parser.skip_space s).trunc.idx = (Parser.skip_space s).idx := rfl
  rw [hidx]
  split
  · rcases parse_f64 (Parser.read_num (Parser.skip_space s)).1 with _ | v <;> rfl
  · rfl

/-- Everything from the first line terminator onwards is invisible to the
descent: running on the truncated cursor gives the same result and the
truncated final cursor, for any fuels. -/
theorem parse_trunc : ∀ n₁ : Nat, ∀ n₂ : Nat, ∀ s : Parser,
    (∀ r₁ t₁ r₂ t₂, Parser.parse_base n₁ s.trunc = some (r₁, t₁) →
        Parser.parse_base n₂ s = some (r₂, t₂) → r₁ = r₂ ∧ t₁ = t₂.trunc) ∧
    (∀ r₁ t₁ r₂ t₂, Parser.parse_mul n₁ s.trunc = some (r₁, t₁) →
        Parser.parse_mul n₂ s = some (r₂, t₂) → r₁ = r₂ ∧ t₁ = t₂.trunc) ∧
    (∀ r₁ t₁ r₂ t₂, Parser.parse_add n₁ s.trunc = some (r₁, t₁) →
        Parser.parse_add n₂ s = some (r₂, t₂) → r₁ = r₂ ∧ t₁ = t₂.trunc) := by
  intro n₁
  induction n₁ with
  | zero =>
    intro n₂ s
    refine ⟨?_, ?_, ?_⟩ <;>
      · intro r₁ t₁ r₂ t₂ h₁ h₂
        simp only [Parser.parse_base, Parser.parse_mul, Parser.parse_add] at h₁
        exact Option.noConfusion h₁
  | succ n ih =>
    intro n₂ s
    cases n₂ with
    | zero =>
      refine ⟨?_, ?_, ?_⟩ <;>
        · intro r₁ t₁ r₂ t₂ h₁ h₂
          simp only [Parser.parse_base, Parser.parse_mul, Parser.parse_add] at h₂
          exact Option.noConfusion h₂
    | succ m =>
      refine ⟨?_, ?_, ?_⟩
      · -- parse_base
        intro r₁ t₁ r₂ t₂ h₁ h₂
        simp only [Parser.parse_base] at h₁ h₂
        rw [skip_space_trunc, peek_trunc] at h₁
        cases hbr : base_rule_of (Parser.skip_space s).peek with
        | minus =>
          rw [hbr] at h₁ h₂
          have hp := base_rule_minus hbr
          rw [skip_trunc hp] at h₁
          rcases hc₂ : Parser.parse_base m (Parser.skip (Parser.skip_space s)) with _ | ⟨rb, tb⟩
          · rw [hc₂] at h₂; cases h₂
          rcases hc₁ : Parser.parse_base n (Parser.skip (Parser.skip_space s)).trunc with _ | ⟨ra, ta⟩
          · rw [hc₁] at h₁; cases h₁
          rw [hc₁] at h₁
          rw [hc₂] at h₂
          injection h₁ with h₁
          injection h₁ with ha₁ hb₁
          injection h₂ with h₂
          injection h₂ with ha₂ hb₂
          subst hb₁; subst hb₂; subst ha₁; subst ha₂
          obtain ⟨hre, hte⟩ := (ih m _).1 ra ta rb tb hc₁ hc₂
          subst hre
          exact ⟨rfl, hte⟩
        | plus =>
          rw [hbr] at h₁ h₂
          have hp := base_rule_plus hbr
          rw [skip_trunc hp] at h₁
          rcases hc₂ : Parser.parse_base m (Parser.skip (Parser.skip_space s)) with _ | ⟨rb, tb⟩
          · rw [hc₂] at h₂; cases h₂
          rcases hc₁ : Parser.parse_base n (Parser.skip (Parser.skip_space s)).trunc with _ | ⟨ra, ta⟩
          · rw [hc₁] at h₁; cases h₁
          rw [hc₁] at h₁
          rw [hc₂] at h₂
          injection h₁ with h₁
          injection h₁ with ha₁ hb₁
          injection h₂ with h₂
          injection h₂ with ha₂ hb₂
          subst hb₁; subst hb₂; subst ha₁; subst ha₂
          obtain ⟨hre, hte⟩ := (ih m _).1 ra ta rb tb hc₁ hc₂
          subst hre
          exact ⟨rfl, hte⟩
        | paren =>
          rw [hbr] at h₁ h₂
          have hp := base_rule_paren hbr
          rw [skip_trunc hp] at h₁
          rcases hc₂ : Parser.parse_add m (Parser.skip (Parser.skip_space s)) with _ | ⟨rb, tb⟩
          · rw [hc₂] at h₂; cases h₂
          rcases hc₁ : Parser.parse_add n (Parser.skip (Parser.skip_space s)).trunc with _ | ⟨ra, ta⟩
          · rw [hc₁] at h₁; cases h₁
          rw [hc₁] at h₁
          rw [hc₂] at h₂
          obtain ⟨hre, hte⟩ := (ih m _).2.2 ra ta rb tb hc₁ hc₂
          subst hre
          subst hte
          cases ra with
          | Present e₁ =>
            try simp only [] at h₁ h₂
            rw [skip_space_trunc, peek_trunc] at h₁
            by_cases hcp : ((Parser.skip_space tb).peek.map fun ch => ch != ')').getD true = true
            · rw [if_pos hcp] at h₁ h₂
              injection h₁ with h₁
              injection h₁ with ha₁ hb₁
              injection h₂ with h₂
              injection h₂ with ha₂ hb₂
              subst hb₁; subst hb₂; subst ha₁; subst ha₂
              exact ⟨rfl, rfl⟩
            · rw [if_neg hcp] at h₁ h₂
              have hq := close_cond_false hcp
              rw [skip_trunc hq] at h₁
              injection h₁ with h₁
              injection h₁ with ha₁ hb₁
              injection h₂ with h₂
              injection h₂ with ha₂ hb₂
              subst hb₁; subst hb₂; subst ha₁; subst ha₂
              exact ⟨rfl, rfl⟩
          | Absent =>
            try simp only [] at h₁ h₂
            injection h₁ with h₁
            injection h₁ with ha₁ hb₁
            injection h₂ with h₂
            injection h₂ with ha₂ hb₂
            subst hb₁; subst hb₂; subst ha₁; subst ha₂
            exact ⟨rfl, rfl⟩
          | Error m1 i1 =>
            try simp only [] at h₁ h₂
            injection h₁ with h₁
            injection h₁ with ha₁ hb₁
            injection h₂ with h₂
            injection h₂ with ha₂ hb₂
            subst hb₁; subst hb₂; subst ha₁; subst ha₂
            exact ⟨rfl, rfl⟩
        | bars =>
          rw [hbr] at h₁ h₂
          have hp := base_rule_bars hbr
          rw [skip_trunc hp] at h₁
          rcases hc₂ : Parser.parse_add m (Parser.skip (Parser.skip_space s)) with _ | ⟨rb, tb⟩
          · rw [hc₂] at h₂; cases h₂
          rcases hc₁ : Parser.parse_add n (Parser.skip (Parser.skip_space s)).trunc with _ | ⟨ra, ta⟩
          · rw [hc₁] at h₁; cases h₁
          rw [hc₁] at h₁
          rw [hc₂] at h₂
          obtain ⟨hre, hte⟩ := (ih m _).2.2 ra ta rb tb hc₁ hc₂
          subst hre
          subst hte
          cases ra with
          | Present e₁ =>
            try simp only [] at h₁ h₂
            rw [skip_space_trunc, peek_trunc] at h₁
            by_cases hcp : ((Parser.skip_space tb).peek.map fun ch => ch != '|').getD true = true
            · rw [if_pos hcp] at h₁ h₂
              injection h₁ with h₁
              injection h₁ with ha₁ hb₁
              injection h₂ with h₂
              injection h₂ with ha₂ hb₂
              subst hb₁; subst hb₂; subst ha₁; subst ha₂
              exact ⟨rfl, rfl⟩
            · rw [if_neg hcp] at h₁ h₂
              have hq := close_cond_false hcp
              rw [skip_trunc hq] at h₁
              injection h₁ with h₁
              injection h₁ with ha₁ hb₁
              injection h₂ with h₂
              injection h₂ with ha₂ hb₂
              subst hb₁; subst hb₂; subst ha₁; subst ha₂
              exact ⟨rfl, rfl⟩
          | Absent =>
            try simp only [] at h₁ h₂
            injection h₁ with h₁
            injection h₁ with ha₁ hb₁
            injection h₂ with h₂
            injection h₂ with ha₂ hb₂
            subst hb₁; subst hb₂; subst ha₁; subst ha₂
            exact ⟨rfl, rfl⟩
          | Error m1 i1 =>
            try simp only [] at h₁ h₂
            injection h₁ with h₁
            injection h₁ with ha₁ hb₁
            injection h₂ with h₂
            injection h₂ with ha₂ hb₂
            subst hb₁; subst hb₂; subst ha₁; subst ha₂
            exact ⟨rfl, rfl⟩
        | number =>
          rw [hbr] at h₁ h₂
          injection h₁ with h₁
          injection h₂ with h₂
          rw [parse_number_trunc] at h₁
          injection h₁ with hr₁ ht₁
          have hr₂ : r₂ = (Parser.parse_number (Parser.skip_space s)).1 := by rw [h₂]
          have ht₂ : t₂ = (Parser.parse_number (Parser.skip_space s)).2 := by rw [h₂]
          subst hr₁; subst ht₁; subst hr₂; subst ht₂
          exact ⟨rfl, rfl⟩
      · -- parse_mul
        intro r₁ t₁ r₂ t₂ h₁ h₂
        simp only [Parser.parse_mul] at h₁ h₂
        rcases hc₂ : Parser.parse_base m s with _ | ⟨rb, tb⟩
        · rw [hc₂] at h₂; cases h₂
        rcases hc₁ : Parser.parse_base n s.trunc with _ | ⟨ra, ta⟩
        · rw [hc₁] at h₁; cases h₁
        rw [hc₁] at h₁
        rw [hc₂] at h₂
        obtain ⟨hre, hte⟩ := (ih m _).1 ra ta rb tb hc₁ hc₂
        subst hre
        subst hte
        cases ra with
        | Present lhs =>
          try simp only [] at h₁ h₂
          rw [skip_space_trunc, peek_trunc] at h₁
          rcases hop : mul_op_of (Parser.skip_space tb).peek with _ | op
          · rw [hop] at h₁ h₂
            injection h₁ with h₁
            injection h₁ with ha₁ hb₁
            injection h₂ with h₂
            injection h₂ with ha₂ hb₂
            subst hb₁; subst hb₂; subst ha₁; subst ha₂
            exact ⟨rfl, rfl⟩
          · rw [hop] at h₁ h₂
            obtain ⟨c, hq, _, _⟩ := mul_op_char hop
            rw [skip_trunc hq] at h₁
            rcases hc₄ : Parser.parse_mul m (Parser.skip (Parser.skip_space tb)) with _ | ⟨rd, td⟩
            · rw [hc₄] at h₂; cases h₂
            rcases hc₃ : Parser.parse_mul n (Parser.skip (Parser.skip_space tb)).trunc with _ | ⟨rc, tc⟩
            · rw [hc₃] at h₁; cases h₁
            rw [hc₃] at h₁
            rw [hc₄] at h₂
            injection h₁ with h₁
            injection h₁ with ha₁ hb₁
            injection h₂ with h₂
            injection h₂ with ha₂ hb₂
            subst hb₁; subst hb₂; subst ha₁; subst ha₂
            obtain ⟨hre₂, hte₂⟩ := (ih m _).2.1 rc tc rd td hc₃ hc₄
            subst hre₂
            exact ⟨rfl, hte₂⟩
        | Absent =>
          try simp only [] at h₁ h₂
          injection h₁ with h₁
          injection h₁ with ha₁ hb₁
          injection h₂ with h₂
          injection h₂ with ha₂ hb₂
          subst hb₁; subst hb₂; subst ha₁; subst ha₂
          exact ⟨rfl, rfl⟩
        | Error m1 i1 =>
          try simp only [] at h₁ h₂
          injection h₁ with h₁
          injection h₁ with ha₁ hb₁
          injection h₂ with h₂
          injection h₂ with ha₂ hb₂
          subst hb₁; subst hb₂; subst ha₁; subst ha₂
          exact ⟨rfl, rfl⟩
      · -- parse_add
        intro r₁ t₁ r₂ t₂ h₁ h₂
        simp only [Parser.parse_add] at h₁ h₂
        rcases hc₂ : Parser.parse_mul m s with _ | ⟨rb, tb⟩
        · rw [hc₂] at h₂; cases h₂
        rcases hc₁ : Parser.parse_mul n s.trunc with _ | ⟨ra, ta⟩
        · rw [hc₁] at h₁; cases h₁
        rw [hc₁] at h₁
        rw [hc₂] at h₂
        obtain ⟨hre, hte⟩ := (ih m _).2.1 ra ta rb tb hc₁ hc₂
        subst hre
        subst hte
        cases ra with
        | Present lhs =>
          try simp only [] at h₁ h₂
          rw [skip_space_trunc, peek_trunc] at h₁
          rcases hop : add_op_of (Parser.skip_space tb).peek with _ | op
          · rw [hop] at h₁ h₂
            injection h₁ with h₁
            injection h₁ with ha₁ hb₁
            injection h₂ with h₂
            injection h₂ with ha₂ hb₂
            subst hb₁; subst hb₂; subst ha₁; subst ha₂
            exact ⟨rfl, rfl⟩
          · rw [hop] at h₁ h₂
            obtain ⟨c, hq, _, _⟩ := add_op_char hop
            rw [skip_trunc hq] at h₁
            rcases hc₄ : Parser.parse_add m (Parser.skip (Parser.skip_space tb)) with _ | ⟨rd, td⟩
            · rw [hc₄] at h₂; cases h₂
            rcases hc₃ : Parser.parse_add n (Parser.skip (Parser.skip_space tb)).trunc with _ | ⟨rc, tc⟩
            · rw [hc₃] at h₁; cases h₁
            rw [hc₃] at h₁
            rw [hc₄] at h₂
            injection h₁ with h₁
            injection h₁ with ha₁ hb₁
            injection h₂ with h₂
            injection h₂ with ha₂ hb₂
            subst hb₁; subst hb₂; subst ha₁; subst ha₂
            obtain ⟨hre₂, hte₂⟩ := (ih m _).2.2 rc tc rd td hc₃ hc₄
            subst hre₂
            exact ⟨rfl, hte₂⟩
        | Absent =>
          try simp only [] at h₁ h₂
          injection h₁ with h₁
          injection h₁ with ha₁ hb₁
          injection h₂ with h₂
          injection h₂ with ha₂ hb₂
          subst hb₁; subst hb₂; subst ha₁; subst ha₂
          exact ⟨rfl, rfl⟩
        | Error m1 i1 =>
          try simp only [] at h₁ h₂
          injection h₁ with h₁
          injection h₁ with ha₁ hb₁
          injection h₂ with h₂
          injection h₂ with ha₂ hb₂
          subst hb₁; subst hb₂; subst ha₁; subst ha₂
          exact ⟨rfl, rfl⟩

/-! ### Valid inputs of the grammar: derivations, rendering, parsed trees -/

mutual
/-- A derivation of the grammar rule `add` of `parser.rs`. -/
inductive GAdd where
  | ofMul : GMul → GAdd
  | addOp : GMul → AddOp → GAdd → GAdd

/-- A derivation of the grammar rule `mul` of `parser.rs`. -/
inductive GMul where
  | ofBase : GBase → GMul
  | mulOp : GBase → MulOp → GMul → GMul

/-- A derivation of the grammar rule `base` of `parser.rs`. -/
inductive GBase where
  | num : List Char → GBase
  | gneg : GBase → GBase
  | gpos : GBase → GBase
  | paren : GAdd → GBase
  | bars : GAdd → GBase
end

mutual
/-- Validity: every numeric literal of the derivation converts as an `f64`. -/
def wfA : GAdd → Bool
  | GAdd.ofMul m => wfM m
  | GAdd.addOp m _ rest => wfM m && wfA rest

def wfM : GMul → Bool
  | GMul.ofBase b => wfB b
  | GMul.mulOp b _ rest => wfB b && wfM rest

def wfB : GBase → Bool
  | GBase.num cs => (parse_f64 cs).isSome
  | GBase.gneg b => wfB b
  | GBase.gpos b => wfB b
  | GBase.paren a => wfA a
  | GBase.bars a => wfA a
end

/-- Concrete character of an additive operator. -/
def addOpChar : AddOp → Char
  | AddOp.Add => '+'
  | AddOp.Sub => '-'

/-- Concrete character of a multiplicative operator. -/
def mulOpChar : MulOp → Char
  | MulOp.Mul => '*'
  | MulOp.Div => '/'
  | MulOp.Rem => '%'

mutual
/-- The input text of a derivation (no whitespace). -/
def renderA : GAdd → List Char
  | GAdd.ofMul m => renderM m
  | GAdd.addOp m op rest => renderM m ++ addOpChar op :: renderA rest

def renderM : GMul → List Char
  | GMul.ofBase b => renderB b
  | GMul.mulOp b op rest => renderB b ++ mulOpChar op :: renderM rest

def renderB : GBase → List Char
  | GBase.num cs => cs
  | GBase.gneg b => '-' :: renderB b
  | GBase.gpos b => '+' :: renderB b
  | GBase.paren a => '(' :: (renderA a ++ [')'])
  | GBase.bars a => '|' :: (renderA a ++ ['|'])
end

mutual
/-- The tree the parser builds for a derivation. -/
def treeA : GAdd → Expression
  | GAdd.ofMul m => treeM m
  | GAdd.addOp m AddOp.Add rest => add (treeM m) (treeA rest)
  | GAdd.addOp m AddOp.Sub rest => sub (treeM m) (treeA rest)

def treeM : GMul → Expression
  | GMul.ofBase b => treeB b
  | GMul.mulOp b MulOp.Mul rest => mul (treeB b) (treeM rest)
  | GMul.mulOp b MulOp.Div rest => div (treeB b) (treeM rest)
  | GMul.mulOp b MulOp.Rem rest => rem (treeB b) (treeM rest)

def treeB : GBase → Expression
  | GBase.num cs => val ((parse_f64 cs).getD 0)
  | GBase.gneg b => neg (treeB b)
  | GBase.gpos b => neg (treeB b)
  | GBase.paren a => treeA a
  | GBase.bars a => abs (treeA a)
end

mutual
/-- Modelled from the spec: the value of an `add` derivation, obtained by
applying the grammar's operators — with the grammar's right-associative
grouping, unary `+` and `-` both mapping to negation, bars to absolute
value — directly to the double-precision values of the literals. -/
def valueA : GAdd → FP
  | GAdd.ofMul m => valueM m
  | GAdd.addOp m AddOp.Add rest => FP.add (valueM m) (valueA rest)
  | GAdd.addOp m AddOp.Sub rest => FP.sub (valueM m) (valueA rest)

/-- Modelled from the spec: the value of a `mul` derivation. -/
def valueM : GMul → FP
  | GMul.ofBase b => valueB b
  | GMul.mulOp b MulOp.Mul rest => FP.mul (valueB b) (valueM rest)
  | GMul.mulOp b MulOp.Div rest => FP.div (valueB b) (valueM rest)
  | GMul.mulOp b MulOp.Rem rest => FP.rem (valueB b) (valueM rest)

/-- Modelled from the spec: the value of a `base` derivation. -/
def valueB : GBase → FP
  | GBase.num cs => FP.fin ((parse_f64 cs).getD 0)
  | GBase.gneg b => FP.neg (valueB b)
  | GBase.gpos b => FP.neg (valueB b)
  | GBase.paren a => valueA a
  | GBase.bars a => _abs (valueA a)
end

mutual
/-- Evaluating the parsed tree applies the grammar's operators directly to
the literal values. -/
theorem eval_treeA : ∀ d : GAdd, (treeA d).eval = valueA d
  | GAdd.ofMul m => eval_treeM m
  | GAdd.addOp m AddOp.Add rest => by
    show FP.add (treeM m).eval (treeA rest).eval = _
    rw [eval_treeM m, eval_treeA rest]
    rfl
  | GAdd.addOp m AddOp.Sub rest => by
    show FP.sub (treeM m).eval (treeA rest).eval = _
    rw [eval_treeM m, eval_treeA rest]
    rfl

theorem eval_treeM : ∀ d : GMul, (treeM d).eval = valueM d
  | GMul.ofBase b => eval_treeB b
  | GMul.mulOp b MulOp.Mul rest => by
    show FP.mul (treeB b).eval (treeM rest).eval = _
    rw [eval_treeB b, eval_treeM rest]
    rfl
  | GMul.mulOp b MulOp.Div rest => by
    show FP.div (treeB b).eval (treeM rest).eval = _
    rw [eval_treeB b, eval_treeM rest]
    rfl
  | GMul.mulOp b MulOp.Rem rest => by
    show FP.rem (treeB b).eval (treeM rest).eval = _
    rw [eval_treeB b, eval_treeM rest]
    rfl

theorem eval_treeB : ∀ d : GBase, (treeB d).eval = valueB d
  | GBase.num cs => rfl
  | GBase.gneg b => by
    show FP.neg (treeB b).eval = _
    rw [eval_treeB b]
    rfl
  | GBase.gpos b => by
    show FP.neg (treeB b).eval = _
    rw [eval_treeB b]
    rfl
  | GBase.paren a => eval_treeA a
  | GBase.bars a => by
    show _abs (treeA a).eval = _
    rw [eval_treeA a]
    rfl
end

/-! ### Support lemmas for parsing rendered derivations -/

theorem _is_number_char_some (c : Char) : _is_number_char (some c) = numB c := rfl

theorem digitDot_not_sp {c : Char} (h : (c.isDigit || c = '.') = true) :
    is_sp c = false := by
  cases hs : is_sp c with
  | false => rfl
  | true =>
    rcases Bool.or_eq_true_iff.mp hs with h' | h' <;>
      · rw [show c = _ from of_decide_eq_true h'] at h; exact absurd h (by decide)

theorem digitDot_not_NL {c : Char} (h : (c.isDigit || c = '.') = true) :
    isNL c = false := by
  cases hs : isNL c with
  | false => rfl
  | true =>
    rcases Bool.or_eq_true_iff.mp hs with h' | h' <;>
      · rw [show c = _ from of_decide_eq_true h'] at h; exact absurd h (by decide)

theorem digitDot_numB {c : Char} (h : (c.isDigit || c = '.') = true) :
    numB c = true := by
  rcases Bool.or_eq_true_iff.mp h with h' | h'
  · unfold numB is_numeric
    rw [h']
    rfl
  · rw [show c = _ from of_decide_eq_true h']
    decide

theorem digitDot_base_rule {c : Char} (h : (c.isDigit || c = '.') = true) :
    base_rule_of (some c) = BaseRule.number := by
  unfold base_rule_of
  split
  · next heq => injection heq with heq; subst heq; exact absurd h (by decide)
  · next heq => injection heq with heq; subst heq; exact absurd h (by decide)
  · next heq => injection heq with heq; subst heq; exact absurd h (by decide)
  · next heq => injection heq with heq; subst heq; exact absurd h (by decide)
  · rfl

theorem parse_f64_some_facts {cs : List Char} {v : ℚ} (h : parse_f64 cs = some v) :
    (cs.all fun c => c.isDigit || c = '.') = true ∧ cs ≠ [] := by
  unfold parse_f64 at h
  split at h
  · next hcond =>
    refine ⟨hcond.1, ?_⟩
    intro hnil
    subst hnil
    exact absurd hcond.2.1 (by decide)
  · cases h

theorem takeWhile_append_all {p : Char → Bool} {a b : List Char}
    (ha : a.all p = true) (hb : ∀ c, b.head? = some c → p c = false) :
    (a ++ b).takeWhile p = a ∧ (a ++ b).dropWhile p = b := by
  induction a with
  | nil =>
    simp only [List.nil_append]
    cases b with
    | nil => exact ⟨rfl, rfl⟩
    | cons c r =>
      have := hb c rfl
      rw [List.takeWhile_cons, List.dropWhile_cons]
      simp [this]
  | cons c a ih =>
    simp only [List.all_cons, Bool.and_eq_true] at ha
    obtain ⟨hc, ha⟩ := ha
    obtain ⟨h1, h2⟩ := ih ha
    rw [List.cons_append, List.takeWhile_cons, List.dropWhile_cons]
    simp [hc, h1, h2]

/-! Step equations for `parse_base` on inputs with a known first character. -/

theorem parse_base_cons_minus (n i : Nat) (r : List Char) :
    Parser.parse_base (n + 1) ⟨i, '-' :: r⟩ =
      (match Parser.parse_base n ⟨i + 1, r⟩ with
       | none => none
       | some (p, s1) => some (p.map fun exp => neg exp, s1)) := by
  simp only [Parser.parse_base]
  rw [skip_space_eq_self (fun c hc => by injection hc with hc; subst hc; decide)]
  rfl

theorem parse_base_cons_plus (n i : Nat) (r : List Char) :
    Parser.parse_base (n + 1) ⟨i, '+' :: r⟩ =
      (match Parser.parse_base n ⟨i + 1, r⟩ with
       | none => none
       | some (p, s1) => some (p.map fun exp => neg exp, s1)) := by
  simp only [Parser.parse_base]
  rw [skip_space_eq_self (fun c hc => by injection hc with hc; subst hc; decide)]
  rfl

theorem parse_base_cons_paren (n i : Nat) (r : List Char) :
    Parser.parse_base (n + 1) ⟨i, '(' :: r⟩ =
      (match Parser.parse_add n ⟨i + 1, r⟩ with
       | none => none
       | some (ParseResult.Present exp, s1) =>
         if (s1.skip_space.peek.map fun ch => ch != ')').getD true then
           some (ParseResult.Error (r"Expected ')'") s1.skip_space.idx, s1.skip_space)
         else some (ParseResult.Present exp, s1.skip_space.skip)
       | some (p, s1) => some (p, s1)) := by
  simp only [Parser.parse_base]
  rw [skip_space_eq_self (fun c hc => by injection hc with hc; subst hc; decide)]
  rfl

theorem parse_base_cons_bars (n i : Nat) (r : List Char) :
    Parser.parse_base (n + 1) ⟨i, '|' :: r⟩ =
      (match Parser.parse_add n ⟨i + 1, r⟩ with
       | none => none
       | some (ParseResult.Present exp, s1) =>
         if (s1.skip_space.peek.map fun ch => ch != '|').getD true then
           some (ParseResult.Error (r"Expected '|'") s1.skip_space.idx, s1.skip_space)
         else some (ParseResult.Present (abs exp), s1.skip_space.skip)
       | some (p, s1) => some (p, s1)) := by
  simp only [Parser.parse_base]
  rw [skip_space_eq_self (fun c hc => by injection hc with hc; subst hc; decide)]
  rfl

theorem parse_base_cons_num {c : Char} (h : (c.isDigit || c = '.') = true)
    (n i : Nat) (r : List Char) :
    Parser.parse_base (n + 1) ⟨i, c :: r⟩ = some (Parser.parse_number ⟨i, c :: r⟩) := by
  simp only [Parser.parse_base]
  rw [skip_space_eq_self (fun c' hc => by injection hc with hc; subst hc; exact digitDot_not_sp h)]
  rw [peek_cons, if_neg (by simp [digitDot_not_NL h]), digitDot_base_rule h]

theorem parse_mul_succ_eq (n : Nat) (s0 : Parser) {lhs : Expression} {s1 : Parser}
    (hb : Parser.parse_base n s0 = some (ParseResult.Present lhs, s1)) :
    Parser.parse_mul (n + 1) s0 =
      (match mul_op_of s1.skip_space.peek with
       | none => some (ParseResult.Present lhs, s1.skip_space)
       | some op =>
         match Parser.parse_mul n s1.skip_space.skip with
         | none => none
         | some (right, s3) =>
           some (right.map fun rhs =>
             (match op with
              | MulOp.Mul => mul lhs rhs
              | MulOp.Div => div lhs rhs
              | MulOp.Rem => rem lhs rhs), s3)) := by
  simp only [Parser.parse_mul]
  rw [hb]

theorem parse_add_succ_eq (n : Nat) (s0 : Parser) {lhs : Expression} {s1 : Parser}
    (hb : Parser.parse_mul n s0 = some (ParseResult.Present lhs, s1)) :
    Parser.parse_add (n + 1) s0 =
      (match add_op_of s1.skip_space.peek with
       | none => some (ParseResult.Present lhs, s1.skip_space)
       | some op =>
         match Parser.parse_add n s1.skip_space.skip with
         | none => none
         | some (right, s3) =>
           some (right.map fun rhs =>
             (match op with
              | AddOp.Add => add lhs rhs
              | AddOp.Sub => sub lhs rhs), s3)) := by
  simp only [Parser.parse_add]
  rw [hb]

/-! Suffix conditions under which a level does not continue past its render. -/

/-- The suffix cannot extend a number run. -/
def goodB (suffix : List Char) : Prop := _is_number_char suffix.head? = false

/-- Additionally, the suffix neither starts with a `mul` operator nor with a
space. -/
def goodM (suffix : List Char) : Prop :=
  goodB suffix ∧ ∀ c, suffix.head? = some c → mul_op_of (some c) = none ∧ is_sp c = false

/-- Additionally, the suffix does not start with an `add` operator. -/
def goodA (suffix : List Char) : Prop :=
  goodM suffix ∧ ∀ c, suffix.head? = some c → add_op_of (some c) = none

theorem goodB_number_char {j : Nat} {suffix : List Char} (hg : goodB suffix) :
    _is_number_char (Parser.peek ⟨j, suffix⟩) = false := by
  cases suffix with
  | nil => rfl
  | cons c r =>
    rw [peek_cons]
    cases hn : isNL c with
    | true => rw [if_pos rfl]; rfl
    | false => rw [if_neg (by simp [hn])]; exact hg

theorem goodM_skip_space {j : Nat} {suffix : List Char} (hg : goodM suffix) :
    Parser.skip_space ⟨j, suffix⟩ = ⟨j, suffix⟩ :=
  skip_space_eq_self (fun c hc => (hg.2 c hc).2)

theorem goodM_mul_op {j : Nat} {suffix : List Char} (hg : goodM suffix) :
    mul_op_of (Parser.peek ⟨j, suffix⟩) = none := by
  cases suffix with
  | nil => rfl
  | cons c r =>
    rw [peek_cons]
    cases hn : isNL c with
    | true => rw [if_pos rfl]; rfl
    | false => rw [if_neg (by simp [hn])]; exact (hg.2 c rfl).1

theorem goodA_add_op {j : Nat} {suffix : List Char} (hg : goodA suffix) :
    add_op_of (Parser.peek ⟨j, suffix⟩) = none := by
  cases suffix with
  | nil => rfl
  | cons c r =>
    rw [peek_cons]
    cases hn : isNL c with
    | true => rw [if_pos rfl]; rfl
    | false => rw [if_neg (by simp [hn])]; exact hg.2 c rfl

mutual

/-- Parsing the rendered text of a valid `base` derivation (followed by a
suffix that cannot extend a number run) yields exactly its tree and stops
exactly at the suffix — unless the fuel runs out. -/
theorem render_base_ok : ∀ (b : GBase) (n i : Nat) (suffix : List Char),
    wfB b = true → goodB suffix →
    Parser.parse_base n ⟨i, renderB b ++ suffix⟩ = none ∨
    Parser.parse_base n ⟨i, renderB b ++ suffix⟩ =
      some (ParseResult.Present (treeB b), ⟨i + (renderB b).length, suffix⟩)
  | _, 0, _, _ => fun _ _ => Or.inl rfl
  | GBase.num cs, n+1, i, suffix => fun hw hg => by
    obtain ⟨v, hv⟩ := Option.isSome_iff_exists.mp hw
    obtain ⟨hall, hne⟩ := parse_f64_some_facts hv
    obtain ⟨c₀, cs', hcs⟩ := List.exists_cons_of_ne_nil hne
    subst hcs
    have hc₀ : (c₀.isDigit || c₀ = '.') = true := by
      rw [List.all_eq_true] at hall
      exact hall c₀ (by simp)
    right
    simp only [renderB]
    rw [List.cons_append, parse_base_cons_num hc₀]
    simp only [Parser.parse_number]
    rw [skip_space_eq_self (fun c hc => by
      injection hc with hc; subst hc; exact digitDot_not_sp hc₀)]
    rw [show Parser.peek ⟨i, c₀ :: (cs' ++ suffix)⟩ = some c₀ from by
      rw [peek_cons, if_neg (by simp [digitDot_not_NL hc₀])]]
    rw [_is_number_char_some, digitDot_numB hc₀, if_pos rfl]
    rw [read_num_eq]
    have hallnum : ((c₀ :: cs').all numB) = true := by
      rw [List.all_eq_true] at hall ⊢
      intro x hx
      exact digitDot_numB (hall x hx)
    have hsf : ∀ c, suffix.head? = some c → numB c = false := by
      intro c hc
      have hgg : _is_number_char suffix.head? = false := hg
      rw [hc] at hgg
      exact hgg
    obtain ⟨htw, hdw⟩ := takeWhile_append_all hallnum hsf
    rw [List.cons_append] at htw hdw
    rw [htw, hdw, hv]
    simp [treeB, hv]
  | GBase.gneg b, n+1, i, suffix => fun hw hg => by
    simp only [renderB]
    rw [List.cons_append, parse_base_cons_minus]
    rcases render_base_ok b n (i+1) suffix hw hg with hnone | hsome
    · rw [hnone]
      exact Or.inl rfl
    · rw [hsome]
      right
      simp only [ParseResult.map, treeB]
      refine congrArg some (congrArg₂ Prod.mk rfl (congrArg₂ Parser.mk ?_ rfl))
      simp only [List.length_cons]
      omega
  | GBase.gpos b, n+1, i, suffix => fun hw hg => by
    simp only [renderB]
    rw [List.cons_append, parse_base_cons_plus]
    rcases render_base_ok b n (i+1) suffix hw hg with hnone | hsome
    · rw [hnone]
      exact Or.inl rfl
    · rw [hsome]
      right
      simp only [ParseResult.map, treeB]
      refine congrArg some (congrArg₂ Prod.mk rfl (congrArg₂ Parser.mk ?_ rfl))
      simp only [List.length_cons]
      omega
  | GBase.paren a, n+1, i, suffix => fun hw hg => by
    simp only [renderB]
    rw [List.cons_append, parse_base_cons_paren]
    rw [List.append_assoc, List.singleton_append]
    have hgood : goodA (')' :: suffix) := by
      refine ⟨⟨(by decide : _is_number_char (some ')') = false), ?_⟩, ?_⟩
      · intro c hc
        injection hc with hc
        subst hc
        exact ⟨by decide, by decide⟩
      · intro c hc
        injection hc with hc
        subst hc
        decide
    rcases render_add_ok a n (i+1) (')' :: suffix) hw hgood with hnone | hsome
    · rw [hnone]
      exact Or.inl rfl
    · rw [hsome]
      right
      have hss : Parser.skip_space ⟨i + 1 + (renderA a).length, ')' :: suffix⟩ =
          ⟨i + 1 + (renderA a).length, ')' :: suffix⟩ :=
        skip_space_eq_self (fun c hc => by injection hc with hc; subst hc; decide)
      simp only [hss, peek_cons]
      rw [show (⟨i + 1 + (renderA a).length, ')' :: suffix⟩ : Parser).skip =
          ⟨i + 1 + (renderA a).length + 1, suffix⟩ from rfl]
      simp only [treeB]
      refine congrArg some (congrArg₂ Prod.mk rfl (congrArg₂ Parser.mk ?_ rfl))
      simp only [List.length_cons, List.length_append, List.length_nil]
      omega
  | GBase.bars a, n+1, i, suffix => fun hw hg => by
    simp only [renderB]
    rw [List.cons_append, parse_base_cons_bars]
    rw [List.append_assoc, List.singleton_append]
    have hgood : goodA ('|' :: suffix) := by
      refine ⟨⟨(by decide : _is_number_char (some '|') = false), ?_⟩, ?_⟩
      · intro c hc
        injection hc with hc
        subst hc
        exact ⟨by decide, by decide⟩
      · intro c hc
        injection hc with hc
        subst hc
        decide
    rcases render_add_ok a n (i+1) ('|' :: suffix) hw hgood with hnone | hsome
    · rw [hnone]
      exact Or.inl rfl
    · rw [hsome]
      right
      have hss : Parser.skip_space ⟨i + 1 + (renderA a).length, '|' :: suffix⟩ =
          ⟨i + 1 + (renderA a).length, '|' :: suffix⟩ :=
        skip_space_eq_self (fun c hc => by injection hc with hc; subst hc; decide)
      simp only [hss, peek_cons]
      rw [show (⟨i + 1 + (renderA a).length, '|' :: suffix⟩ : Parser).skip =
          ⟨i + 1 + (renderA a).length + 1, suffix⟩ from rfl]
      simp only [treeB]
      refine congrArg some (congrArg₂ Prod.mk rfl (congrArg₂ Parser.mk ?_ rfl))
      simp only [List.length_cons, List.length_append, List.length_nil]
      omega

/-- Parsing the rendered text of a valid `mul` derivation. -/
theorem render_mul_ok : ∀ (m : GMul) (n i : Nat) (suffix : List Char),
    wfM m = true → goodM suffix →
    Parser.parse_mul n ⟨i, renderM m ++ suffix⟩ = none ∨
    Parser.parse_mul n ⟨i, renderM m ++ suffix⟩ =
      some (ParseResult.Present (treeM m), ⟨i + (renderM m).length, suffix⟩)
  | _, 0, _, _ => fun _ _ => Or.inl rfl
  | GMul.ofBase b, n+1, i, suffix => fun hw hg => by
    simp only [renderM]
    rcases render_base_ok b n i suffix hw hg.1 with hnone | hsome
    · left
      simp only [Parser.parse_mul]
      rw [hnone]
    · right
      rw [parse_mul_succ_eq n _ hsome]
      rw [goodM_skip_space hg, goodM_mul_op hg]
      rfl
  | GMul.mulOp b op rest, n+1, i, suffix => fun hw hg => by
    simp only [wfM, Bool.and_eq_true] at hw
    obtain ⟨hwb, hwrest⟩ := hw
    simp only [renderM]
    rw [List.append_assoc, List.cons_append]
    have hgB : goodB (mulOpChar op :: (renderM rest ++ suffix)) := by
      show _is_number_char (some (mulOpChar op)) = false
      cases op <;> decide
    rcases render_base_ok b n i _ hwb hgB with hnone | hsome
    · left
      simp only [Parser.parse_mul]
      rw [hnone]
    · rw [parse_mul_succ_eq n _ hsome]
      have hss : Parser.skip_space
            ⟨i + (renderB b).length, mulOpChar op :: (renderM rest ++ suffix)⟩ =
          ⟨i + (renderB b).length, mulOpChar op :: (renderM rest ++ suffix)⟩ :=
        skip_space_eq_self (fun c hc => by
          injection hc with hc; subst hc; cases op <;> decide)
      rw [hss]
      rw [show Parser.peek
            ⟨i + (renderB b).length, mulOpChar op :: (renderM rest ++ suffix)⟩ =
          some (mulOpChar op) from by rw [peek_cons]; cases op <;> rfl]
      rw [show mul_op_of (some (mulOpChar op)) = some op from by cases op <;> rfl]
      rw [show Parser.skip
            ⟨i + (renderB b).length, mulOpChar op :: (renderM rest ++ suffix)⟩ =
          ⟨i + (renderB b).length + 1, renderM rest ++ suffix⟩ from rfl]
      rcases render_mul_ok rest n (i + (renderB b).length + 1) suffix hwrest hg with hnone2 | hsome2
      · left
        rw [hnone2]
      · right
        rw [hsome2]
        cases op <;>
          · simp only [ParseResult.map, treeM]
            refine congrArg some (congrArg₂ Prod.mk rfl (congrArg₂ Parser.mk ?_ rfl))
            simp only [List.length_append, List.length_cons]
            omega

/-- Parsing the rendered text of a valid `add` derivation. -/
theorem render_add_ok : ∀ (d : GAdd) (n i : Nat) (suffix : List Char),
    wfA d = true → goodA suffix →
    Parser.parse_add n ⟨i, renderA d ++ suffix⟩ = none ∨
    Parser.parse_add n ⟨i, renderA d ++ suffix⟩ =
      some (ParseResult.Present (treeA d), ⟨i + (renderA d).length, suffix⟩)
  | _, 0, _, _ => fun _ _ => Or.inl rfl
  | GAdd.ofMul m, n+1, i, suffix => fun hw hg => by
    simp only [renderA]
    rcases render_mul_ok m n i suffix hw hg.1 with hnone | hsome
    · left
      simp only [Parser.parse_add]
      rw [hnone]
    · right
      rw [parse_add_succ_eq n _ hsome]
      rw [goodM_skip_space hg.1, goodA_add_op hg]
      rfl
  | GAdd.addOp m op rest, n+1, i, suffix => fun hw hg => by
    simp only [wfA, Bool.and_eq_true] at hw
    obtain ⟨hwm, hwrest⟩ := hw
    simp only [renderA]
    rw [List.append_assoc, List.cons_append]
    have hgM : goodM (addOpChar op :: (renderA rest ++ suffix)) := by
      refine ⟨?_, ?_⟩
      · show _is_number_char (some (addOpChar op)) = false
        cases op <;> decide
      · intro c hc
        injection hc with hc
        subst hc
        cases op <;> exact ⟨by decide, by decide⟩
    rcases render_mul_ok m n i _ hwm hgM with hnone | hsome
    · left
      simp only [Parser.parse_add]
      rw [hnone]
    · rw [parse_add_succ_eq n _ hsome]
      have hss : Parser.skip_space
            ⟨i + (renderM m).length, addOpChar op :: (renderA rest ++ suffix)⟩ =
          ⟨i + (renderM m).length, addOpChar op :: (renderA rest ++ suffix)⟩ :=
        skip_space_eq_self (fun c hc => by
          injection hc with hc; subst hc; cases op <;> decide)
      rw [hss]
      rw [show Parser.peek
            ⟨i + (renderM m).length, addOpChar op :: (renderA rest ++ suffix)⟩ =
          some (addOpChar op) from by rw [peek_cons]; cases op <;> rfl]
      rw [show add_op_of (some (addOpChar op)) = some op from by cases op <;> rfl]
      rw [show Parser.skip
            ⟨i + (renderM m).length, addOpChar op :: (renderA rest ++ suffix)⟩ =
          ⟨i + (renderM m).length + 1, renderA rest ++ suffix⟩ from rfl]
      rcases render_add_ok rest n (i + (renderM m).length + 1) suffix hwrest hg with hnone2 | hsome2
      · left
        rw [hnone2]
      · right
        rw [hsome2]
        cases op <;>
          · simp only [ParseResult.map, treeA]
            refine congrArg some (congrArg₂ Prod.mk rfl (congrArg₂ Parser.mk ?_ rfl))
            simp only [List.length_append, List.length_cons]
            omega

end

/-! ### Top-level corollaries of the render, simulation and truncation results -/

/-- The entry point accepts the rendered text of every valid derivation of the
grammar and returns exactly the tree the descent builds for it. -/
theorem parse_render_a (d : GAdd) (hw : wfA d = true) :
    parse (renderA d) = ParseResult.Present (treeA d) := by
  have hg : goodA ([] : List Char) :=
    ⟨⟨rfl, fun c hc => by cases hc⟩, fun c hc => by cases hc⟩
  have h := render_add_ok d (parseFuel (renderA d)) 0 [] hw hg
  rw [List.append_nil] at h
  rcases h with h | h
  · have ht := parse_add_total (renderA d)
    rw [h] at ht
    cases ht
  · unfold parse
    rw [h]
    rfl

/-- Equation for `parse` once the descent has produced `Present`. -/
theorem parse_present {l : List Char} {e : Expression} {t : Parser}
    (h : Parser.parse_add (parseFuel l) ⟨0, l⟩ = some (ParseResult.Present e, t)) :
    parse l =
      match (Parser.skip_space t).peek with
      | none => ParseResult.Present e
      | some _ => ParseResult.Error (r"Extra input") (Parser.skip_space t).idx := by
  unfold parse
  rw [h]

/-- Equation for `parse` once the descent has produced `Absent`. -/
theorem parse_absent_eq {l : List Char} {t : Parser}
    (h : Parser.parse_add (parseFuel l) ⟨0, l⟩ = some (ParseResult.Absent, t)) :
    parse l =
      match (Parser.skip_space t).peek with
      | none => ParseResult.Absent
      | some _ => ParseResult.Error (r"Extra input") (Parser.skip_space t).idx := by
  unfold parse
  rw [h]

/-- Equation for `parse` once the descent has produced an error. -/
theorem parse_error_eq {l : List Char} {m : String} {i : Nat} {t : Parser}
    (h : Parser.parse_add (parseFuel l) ⟨0, l⟩ = some (ParseResult.Error m i, t)) :
    parse l = ParseResult.Error m i := by
  unfold parse
  rw [h]

/-- A character of `takeWhile p` satisfies `p`. -/
theorem mem_takeWhile_sat (p : Char → Bool) : ∀ l : List Char, ∀ c : Char,
    c ∈ l.takeWhile p → p c = true := by
  intro l
  induction l with
  | nil => intro c h; cases h
  | cons a r ih =>
    intro c h
    rw [List.takeWhile_cons] at h
    cases hp : p a with
    | true =>
      rw [if_pos hp] at h
      rcases List.mem_cons.mp h with h | h
      · subst h; exact hp
      · exact ih c h
    | false =>
      rw [if_neg (by simp [hp])] at h
      cases h

/-- The head of `dropWhile p` does not satisfy `p`. -/
theorem dropWhile_head_not (p : Char → Bool) : ∀ l : List Char, ∀ c : Char,
    (l.dropWhile p).head? = some c → p c = false := by
  intro l
  induction l with
  | nil => intro c h; cases h
  | cons a r ih =>
    intro c h
    rw [List.dropWhile_cons] at h
    cases hp : p a with
    | true =>
      rw [if_pos hp] at h
      exact ih c h
    | false =>
      rw [if_neg (by simp [hp])] at h
      injection h with h
      subst h
      exact hp

/-- `skip_space` is idempotent. -/
theorem skip_space_idem (s : Parser) :
    Parser.skip_space (Parser.skip_space s) = Parser.skip_space s := by
  obtain ⟨i, l⟩ := s
  rw [show Parser.skip_space ⟨i, l⟩ =
      ⟨i + (l.takeWhile is_sp).length, l.dropWhile is_sp⟩ from skip_space_eq i l]
  exact skip_space_eq_self fun c hc => dropWhile_head_not is_sp l c hc

/-- On a line of spaces and tabs (up to its first line terminator), the
lookahead after space skipping is exhausted. -/
theorem blank_peek : ∀ l : List Char, (∀ c ∈ truncNL l, is_sp c = true) →
    ∀ j : Nat, Parser.peek ⟨j, l.dropWhile is_sp⟩ = none := by
  intro l
  induction l with
  | nil => intro _ j; rfl
  | cons a r ih =>
    intro hsp j
    cases hn : isNL a with
    | true =>
      have ha : is_sp a = false := isNL_not_sp hn
      rw [List.dropWhile_cons, if_neg (by simp [ha])]
      rw [peek_cons, if_pos hn]
    | false =>
      have htr : truncNL (a :: r) = a :: truncNL r := by
        simp [truncNL, List.takeWhile_cons, hn]
      have hspa : is_sp a = true := hsp a (by rw [htr]; exact List.mem_cons_self a _)
      rw [List.dropWhile_cons, if_pos hspa]
      refine ih ?_ j
      intro c hc
      exact hsp c (by rw [htr]; exact List.mem_cons_of_mem a hc)

/-- `parse_number` on an exhausted lookahead: `Absent`, cursor unmoved. -/
theorem parse_number_blank {s : Parser}
    (hpk : Parser.peek (Parser.skip_space s) = none) :
    Parser.parse_number (Parser.skip_space s) = (ParseResult.Absent, Parser.skip_space s) := by
  simp only [Parser.parse_number]
  rw [skip_space_idem, hpk]
  rfl

/-- `parse_base` on an exhausted lookahead: `Absent` through the number rule. -/
theorem parse_base_blank (n : Nat) {s : Parser}
    (hpk : Parser.peek (Parser.skip_space s) = none) :
    Parser.parse_base (n + 1) s = some (ParseResult.Absent, Parser.skip_space s) := by
  simp only [Parser.parse_base]
  rw [hpk]
  show some (Parser.parse_number (Parser.skip_space s)) = _
  rw [parse_number_blank hpk]

/-- `parse_mul` on an exhausted lookahead propagates the `Absent`. -/
theorem parse_mul_blank (n : Nat) {s : Parser}
    (hpk : Parser.peek (Parser.skip_space s) = none) :
    Parser.parse_mul (n + 2) s = some (ParseResult.Absent, Parser.skip_space s) := by
  simp only [Parser.parse_mul]
  rw [parse_base_blank n hpk]

/-- `parse_add` on an exhausted lookahead propagates the `Absent`. -/
theorem parse_add_blank (n : Nat) {s : Parser}
    (hpk : Parser.peek (Parser.skip_space s) = none) :
    Parser.parse_add (n + 3) s = some (ParseResult.Absent, Parser.skip_space s) := by
  simp only [Parser.parse_add]
  rw [parse_mul_blank n hpk]

/-- A line that is blank up to its first line terminator parses as `Absent`. -/
theorem parse_blank {l : List Char} (hsp : ∀ c ∈ truncNL l, is_sp c = true) :
    parse l = ParseResult.Absent := by
  have hpk : Parser.peek (Parser.skip_space ⟨0, l⟩) = none := by
    rw [skip_space_eq]
    exact blank_peek l hsp _
  have h : Parser.parse_add (parseFuel l) ⟨0, l⟩ =
      some (ParseResult.Absent, Parser.skip_space ⟨0, l⟩) := parse_add_blank (3 * l.length) hpk
  rw [parse_absent_eq h, skip_space_idem, hpk]

/-- Whitespace idempotence at the entry point: lines that tokenise equally
parse to similar results. -/
theorem parse_sim_top {l₁ l₂ : List Char} (h : tokenize l₁ = tokenize l₂) :
    ParseResult.sim (parse l₁) (parse l₂) := by
  rcases Option.isSome_iff_exists.mp (parse_add_total l₁) with ⟨⟨r₁, t₁⟩, hc₁⟩
  rcases Option.isSome_iff_exists.mp (parse_add_total l₂) with ⟨⟨r₂, t₂⟩, hc₂⟩
  obtain ⟨hsim, htok⟩ := ((parse_sim (parseFuel l₁) (parseFuel l₂) ⟨0, l₁⟩ ⟨0, l₂⟩ h).2.2)
    r₁ t₁ r₂ t₂ hc₁ hc₂
  have hpk := (skip_space_sim htok).1
  cases r₁ with
  | Error m i =>
    cases r₂ with
    | Error m2 i2 => rw [parse_error_eq hc₁, parse_error_eq hc₂]; exact trivial
    | Present e => exact absurd hsim (by simp [ParseResult.sim])
    | Absent => exact absurd hsim (by simp [ParseResult.sim])
  | Present e₁ =>
    cases r₂ with
    | Error m2 i2 => exact absurd hsim (by simp [ParseResult.sim])
    | Absent => exact absurd hsim (by simp [ParseResult.sim])
    | Present e₂ =>
      rw [parse_present hc₁, parse_present hc₂]
      cases hp : Parser.peek (Parser.skip_space t₁) with
      | none =>
        rw [hp] at hpk
        rw [← hpk]
        exact hsim
      | some c =>
        rw [hp] at hpk
        rw [← hpk]
        exact trivial
  | Absent =>
    cases r₂ with
    | Error m2 i2 => exact absurd hsim (by simp [ParseResult.sim])
    | Present e => exact absurd hsim (by simp [ParseResult.sim])
    | Absent =>
      rw [parse_absent_eq hc₁, parse_absent_eq hc₂]
      cases hp : Parser.peek (Parser.skip_space t₁) with
      | none =>
        rw [hp] at hpk
        rw [← hpk]
        exact trivial
      | some c =>
        rw [hp] at hpk
        rw [← hpk]
        exact trivial

theorem trunc_idx (s : Parser) : (Parser.trunc s).idx = s.idx := rfl

/-- `truncNL` is idempotent. -/
theorem truncNL_idem (l : List Char) : truncNL (truncNL l) = truncNL l := by
  induction l with
  | nil => rfl
  | cons a r ih =>
    unfold truncNL at ih ⊢
    cases hn : isNL a with
    | true => simp [List.takeWhile_cons, hn]
    | false => simp [List.takeWhile_cons, hn, ih]

/-- The entry point never looks past the first line terminator. -/
theorem parse_trunc_top (l : List Char) : parse (truncNL l) = parse l := by
  rcases Option.isSome_iff_exists.mp (parse_add_total (truncNL l)) with ⟨⟨r₁, t₁⟩, hc₁⟩
  rcases Option.isSome_iff_exists.mp (parse_add_total l) with ⟨⟨r₂, t₂⟩, hc₂⟩
  have hc₁' : Parser.parse_add (parseFuel (truncNL l)) (Parser.trunc ⟨0, l⟩) =
      some (r₁, t₁) := hc₁
  obtain ⟨hre, hte⟩ := (parse_trunc (parseFuel (truncNL l)) (parseFuel l) ⟨0, l⟩).2.2
    r₁ t₁ r₂ t₂ hc₁' hc₂
  subst hre
  subst hte
  cases r₁ with
  | Error m i => rw [parse_error_eq hc₁, parse_error_eq hc₂]
  | Present e =>
    rw [parse_present hc₁, parse_present hc₂]
    rw [skip_space_trunc, peek_trunc, trunc_idx]
  | Absent =>
    rw [parse_absent_eq hc₁, parse_absent_eq hc₂]
    rw [skip_space_trunc, peek_trunc, trunc_idx]

/-! ### The claims -/

/-- C1: every input line that is a valid expression of the grammar — numeric
literals combined with unary `+`/`-`, the binary operators `+ - * / %`,
parentheses and absolute-value bars — parses as `Present`, and evaluating the
returned tree yields the value obtained by applying the grammar's operators,
with its right-associative grouping, to the literals (`valueA`, modelled from
the spec). -/
theorem claim_C1 (d : GAdd) (hw : wfA d = true) :
    parse (renderA d) = ParseResult.Present (treeA d) ∧
    Expression.eval (treeA d) = valueA d :=
  ⟨parse_render_a d hw, eval_treeA d⟩

theorem claim_C1_witness :
    parse (renderA (GAdd.addOp (GMul.ofBase (GBase.num ['1'])) AddOp.Add
        (GAdd.ofMul (GMul.ofBase (GBase.num ['2']))))) =
      ParseResult.Present (treeA (GAdd.addOp (GMul.ofBase (GBase.num ['1'])) AddOp.Add
        (GAdd.ofMul (GMul.ofBase (GBase.num ['2']))))) ∧
    Expression.eval (treeA (GAdd.addOp (GMul.ofBase (GBase.num ['1'])) AddOp.Add
        (GAdd.ofMul (GMul.ofBase (GBase.num ['2']))))) =
      valueA (GAdd.addOp (GMul.ofBase (GBase.num ['1'])) AddOp.Add
        (GAdd.ofMul (GMul.ofBase (GBase.num ['2'])))) :=
  claim_C1 (GAdd.addOp (GMul.ofBase (GBase.num ['1'])) AddOp.Add
    (GAdd.ofMul (GMul.ofBase (GBase.num ['2'])))) (by decide)

/-- C2: evaluation is a pure total function over every finite expression tree
with no failure mode: `Constant` yields its stored value, the binary nodes
apply the corresponding double-precision operation to the recursively
evaluated children (division or remainder by zero produces infinity or NaN,
never an error), `Neg` negates its child's value and `Abs` negates the
child's value exactly when it is `< 0.0`. -/
theorem claim_C2 : ∀ (l r e : Expression) (v : ℚ),
    Expression.eval (val v) = FP.fin v ∧
    Expression.eval (add l r) = FP.add (Expression.eval l) (Expression.eval r) ∧
    Expression.eval (sub l r) = FP.sub (Expression.eval l) (Expression.eval r) ∧
    Expression.eval (mul l r) = FP.mul (Expression.eval l) (Expression.eval r) ∧
    Expression.eval (div l r) = FP.div (Expression.eval l) (Expression.eval r) ∧
    Expression.eval (rem l r) = FP.rem (Expression.eval l) (Expression.eval r) ∧
    Expression.eval (neg e) = FP.neg (Expression.eval e) ∧
    Expression.eval (abs e) = _abs (Expression.eval e) ∧
    _abs (Expression.eval e) =
      (if FP.ltZero (Expression.eval e) then FP.neg (Expression.eval e)
       else Expression.eval e) ∧
    Expression.eval (div (val 1) (val 0)) = FP.pinf ∧
    Expression.eval (rem (val 1) (val 0)) = FP.nan := by
  intro l r e v
  refine ⟨rfl, rfl, rfl, rfl, rfl, rfl, rfl, rfl, rfl, by decide, by decide⟩

/-- C3: the binary operators are right-associative — at the `add` level a
chain groups to the right for arbitrary well-formed operands — and concretely
`parse "8-3-2"` is `Present` of `8-(3-2)`, which evaluates to `7`, not `3`. -/
theorem claim_C3 (m₁ m₂ m₃ : GMul) (h₁ : wfM m₁ = true) (h₂ : wfM m₂ = true)
    (h₃ : wfM m₃ = true) :
    parse (renderM m₁ ++ '-' :: (renderM m₂ ++ '-' :: renderM m₃)) =
      ParseResult.Present (sub (treeM m₁) (sub (treeM m₂) (treeM m₃))) ∧
    parse ['8', '-', '3', '-', '2'] =
      ParseResult.Present (sub (val 8) (sub (val 3) (val 2))) ∧
    Expression.eval (sub (val 8) (sub (val 3) (val 2))) = FP.fin 7 ∧
    FP.fin 7 ≠ FP.fin 3 := by
  refine ⟨?_, by decide, ?_, by norm_num⟩
  · have h := parse_render_a
      (GAdd.addOp m₁ AddOp.Sub (GAdd.addOp m₂ AddOp.Sub (GAdd.ofMul m₃)))
      (by simp [wfA, h₁, h₂, h₃])
    simpa [renderA, addOpChar, treeA] using h
  · norm_num [Expression.eval, FP.sub, FP.add, FP.neg, FP.finVal, val, sub]

theorem claim_C3_witness :
    parse (renderM (GMul.ofBase (GBase.num ['8'])) ++ '-' ::
        (renderM (GMul.ofBase (GBase.num ['3'])) ++ '-' ::
          renderM (GMul.ofBase (GBase.num ['2'])))) =
      ParseResult.Present (sub (treeM (GMul.ofBase (GBase.num ['8'])))
        (sub (treeM (GMul.ofBase (GBase.num ['3'])))
          (treeM (GMul.ofBase (GBase.num ['2']))))) ∧
    parse ['8', '-', '3', '-', '2'] =
      ParseResult.Present (sub (val 8) (sub (val 3) (val 2))) ∧
    Expression.eval (sub (val 8) (sub (val 3) (val 2))) = FP.fin 7 ∧
    FP.fin 7 ≠ FP.fin 3 :=
  claim_C3 (GMul.ofBase (GBase.num ['8'])) (GMul.ofBase (GBase.num ['3']))
    (GMul.ofBase (GBase.num ['2'])) (by decide) (by decide) (by decide)

/-- C4 (amended): the number rule returns `Absent` exactly when the first
non-space lookahead is not a number character — where, per `_is_number_char`
in the source, a number character is a Unicode-numeric character
(`char::is_numeric`) or `.`, not merely an ASCII digit or `.` — and the run
it consumes consists exactly of such number characters. -/
theorem claim_C4 (s : Parser) :
    ((Parser.parse_number s).1 = ParseResult.Absent ↔
      _is_number_char (Parser.peek (Parser.skip_space s)) = false) ∧
    ∀ c, c ∈ (Parser.read_num (Parser.skip_space s)).1 → numB c = true := by
  constructor
  · simp only [Parser.parse_number]
    cases hn : _is_number_char (Parser.peek (Parser.skip_space s)) with
    | true =>
      rw [if_pos rfl]
      rcases parse_f64 (Parser.read_num (Parser.skip_space s)).1 with _ | v <;> simp
    | false =>
      rw [if_neg (by simp)]
      simp
  · intro c hc
    rcases hsk : Parser.skip_space s with ⟨i, lrest⟩
    rw [hsk, read_num_eq] at hc
    exact mem_takeWhile_sat numB lrest c hc

/-- The original C4 is refuted by a Unicode numeric character: the
Arabic-Indic digit `٣` is neither an ASCII digit nor `.`, yet the number rule
consumes it (yielding an error, not `Absent`). -/
theorem claim_C4_counterexample :
    ('٣'.isDigit || '٣' = '.') = false ∧
    (Parser.parse_number ⟨0, ['٣']⟩).1 ≠ ParseResult.Absent ∧
    '٣' ∈ (Parser.read_num (Parser.skip_space ⟨0, ['٣']⟩)).1 ∧
    parse ['٣'] = ParseResult.Error (r"Incorrect number") 0 := by
  refine ⟨by decide, by decide, by decide, by decide⟩

theorem claim_C4_witness :
    (Parser.parse_number ⟨0, [' ', '+', '1']⟩).1 = ParseResult.Absent :=
  ((claim_C4 ⟨0, [' ', '+', '1']⟩).1).mpr (by decide)

/-- C5: at the entry point, a line that is blank — spaces and tabs only up to
its first line terminator, the empty line included — parses as `Absent`; and
when the top-level `add` parse yields `Present` but a character remains, the
result is `Error "Extra input"` at the index of the first remaining non-space
character: the characters skipped to reach it are all spaces, and the input
at the reported index is that non-space character.  Concretely
`parse "1 2" = Error("Extra input", 2)`. -/
theorem claim_C5 :
    (∀ l : List Char, (∀ c ∈ truncNL l, is_sp c = true) → parse l = ParseResult.Absent) ∧
    (∀ (l : List Char) (e : Expression) (t : Parser) (c : Char),
      Parser.parse_add (parseFuel l) ⟨0, l⟩ = some (ParseResult.Present e, t) →
      Parser.peek (Parser.skip_space t) = some c →
      parse l = ParseResult.Error (r"Extra input") (Parser.skip_space t).idx ∧
      (l.drop (Parser.skip_space t).idx).head? = some c ∧
      is_sp c = false ∧
      ∃ run, l.drop t.idx = run ++ l.drop (Parser.skip_space t).idx ∧
        (∀ d ∈ run, is_sp d = true) ∧
        (Parser.skip_space t).idx = t.idx + run.length) ∧
    parse ['1', ' ', '2'] = ParseResult.Error (r"Extra input") 2 := by
  refine ⟨fun l hsp => parse_blank hsp, ?_, by decide⟩
  intro l e t c h hc
  have hinv : l.drop t.idx = t.rest :=
    (parse_inv l (parseFuel l)).2.2 ⟨0, l⟩ _ t h (by simp)
  have hp1 : parse l = ParseResult.Error (r"Extra input") (Parser.skip_space t).idx := by
    rw [parse_present h, hc]
  obtain ⟨ti, tr⟩ := t
  simp only [] at hinv hc ⊢
  have hss : Parser.skip_space ⟨ti, tr⟩ =
      ⟨ti + (tr.takeWhile is_sp).length, tr.dropWhile is_sp⟩ := skip_space_eq ti tr
  have hdrop : l.drop (ti + (tr.takeWhile is_sp).length) = tr.dropWhile is_sp := by
    rw [← List.drop_drop, hinv]
    exact (dropWhile_eq_drop is_sp tr).symm
  obtain ⟨rr, hr, hnl⟩ := peek_some hc
  have hr' : tr.dropWhile is_sp = c :: rr := by
    rw [hss] at hr
    exact hr
  refine ⟨hp1, ?_, ?_, tr.takeWhile is_sp, ?_, ?_, ?_⟩
  · rw [hss]
    simp only []
    rw [hdrop, hr']
    rfl
  · exact dropWhile_head_not is_sp tr c (by rw [hr']; rfl)
  · rw [hss]
    simp only []
    rw [hdrop, hinv]
    exact (List.takeWhile_append_dropWhile is_sp tr).symm
  · exact fun d hd => mem_takeWhile_sat is_sp tr d hd
  · rw [hss]

theorem claim_C5_witness :
    parse [' ', '\t'] = ParseResult.Absent :=
  claim_C5.1 [' ', '\t'] (by decide)

/-- C6: group-closing errors and their positions: a `(` group (respectively
`|`) whose inner `add` parses as `Present` but whose closing character is
missing yields `Error "Expected ')'"` (respectively `"Expected '|'"`) at the
current index after the inner expression, spaces skipped.  Concretely
`parse "1 + )"` reports an error at position 4, the index of `)`, and
`parse "(1+2") = Error("Expected ')'", 4)`, the index just past the consumed
digits at end of input. -/
theorem claim_C6 :
    (∀ (n i : Nat) (r : List Char) (e : Expression) (t : Parser),
      Parser.parse_add n ⟨i + 1, r⟩ = some (ParseResult.Present e, t) →
      Parser.peek (Parser.skip_space t) ≠ some ')' →
      Parser.parse_base (n + 1) ⟨i, '(' :: r⟩ =
        some (ParseResult.Error (r"Expected ')'") (Parser.skip_space t).idx,
          Parser.skip_space t)) ∧
    (∀ (n i : Nat) (r : List Char) (e : Expression) (t : Parser),
      Parser.parse_add n ⟨i + 1, r⟩ = some (ParseResult.Present e, t) →
      Parser.peek (Parser.skip_space t) ≠ some '|' →
      Parser.parse_base (n + 1) ⟨i, '|' :: r⟩ =
        some (ParseResult.Error (r"Expected '|'") (Parser.skip_space t).idx,
          Parser.skip_space t)) ∧
    parse ['1', ' ', '+', ' ', ')'] = ParseResult.Error (r"Extra input") 4 ∧
    ['1', ' ', '+', ' ', ')'].getD 4 ' ' = ')' ∧
    parse ['(', '1', '+', '2'] = ParseResult.Error (r"Expected ')'") 4 := by
  refine ⟨?_, ?_, by decide, by decide, by decide⟩
  · intro n i r e t h hne
    have hcond : (((Parser.skip_space t).peek.map fun ch => ch != ')').getD true) = true := by
      cases hq : (Parser.skip_space t).peek with
      | none => rfl
      | some d =>
        simp only [Option.map_some', Option.getD_some, bne_iff_ne, ne_eq,
          decide_eq_true_eq]
        intro hde
        exact hne (by rw [hq, hde])
    rw [parse_base_cons_paren, h]
    simp only []
    rw [hcond, if_pos rfl]
  · intro n i r e t h hne
    have hcond : (((Parser.skip_space t).peek.map fun ch => ch != '|').getD true) = true := by
      cases hq : (Parser.skip_space t).peek with
      | none => rfl
      | some d =>
        simp only [Option.map_some', Option.getD_some, bne_iff_ne, ne_eq,
          decide_eq_true_eq]
        intro hde
        exact hne (by rw [hq, hde])
    rw [parse_base_cons_bars, h]
    simp only []
    rw [hcond, if_pos rfl]

theorem claim_C6_witness :
    Parser.parse_base 7 ⟨0, ['(', '1']⟩ =
      some (ParseResult.Error (r"Expected ')'")
          (Parser.skip_space (⟨2, ([] : List Char)⟩ : Parser)).idx,
        Parser.skip_space ⟨2, ([] : List Char)⟩) :=
  claim_C6.1 6 0 ['1'] (val 1) ⟨2, []⟩ (by decide) (by decide)

/-- C7: when the number rule consumes a run of number characters whose text
fails the float conversion, the result is `Error "Incorrect number"` at the
start index of the run (the index reached after skipping the leading spaces);
concretely `parse "1.2.3" = Error("Incorrect number", 0)`. -/
theorem claim_C7 :
    (∀ s0 : Parser,
      _is_number_char (Parser.peek (Parser.skip_space s0)) = true →
      parse_f64 (Parser.read_num (Parser.skip_space s0)).1 = none →
      Parser.parse_number s0 =
        (ParseResult.Error (r"Incorrect number") (Parser.skip_space s0).idx,
          (Parser.read_num (Parser.skip_space s0)).2)) ∧
    parse ['1', '.', '2', '.', '3'] = ParseResult.Error (r"Incorrect number") 0 := by
  refine ⟨?_, by decide⟩
  intro s0 hnum hfail
  simp only [Parser.parse_number]
  rw [if_pos hnum, hfail]

theorem claim_C7_witness :
    Parser.parse_number ⟨0, ['1', '.', '2', '.', '3']⟩ =
      (ParseResult.Error (r"Incorrect number")
          (Parser.skip_space (⟨0, ['1', '.', '2', '.', '3']⟩ : Parser)).idx,
        (Parser.read_num (Parser.skip_space ⟨0, ['1', '.', '2', '.', '3']⟩)).2) :=
  claim_C7.1 ⟨0, ['1', '.', '2', '.', '3']⟩ (by decide) (by decide)

/-- C8 (amended): a unary `+` is treated identically to a unary `-` at the
`base` level: when `base` sees `+` it consumes it, parses another `base` and
wraps that base (not the whole following expression) in a `Neg` node, exactly
as `-` does; e.g. `parse "+3"` evaluates to `-3`. -/
theorem claim_C8 :
    (∀ (n i : Nat) (r : List Char),
      Parser.parse_base (n + 1) ⟨i, '+' :: r⟩ =
        (match Parser.parse_base n ⟨i + 1, r⟩ with
         | none => none
         | some (p, s1) => some (p.map fun exp => neg exp, s1)) ∧
      Parser.parse_base (n + 1) ⟨i, '+' :: r⟩ = Parser.parse_base (n + 1) ⟨i, '-' :: r⟩) ∧
    parse ['+', '3'] = ParseResult.Present (neg (val 3)) ∧
    Expression.eval (neg (val 3)) = FP.fin (-3) := by
  refine ⟨?_, by decide, ?_⟩
  · intro n i r
    refine ⟨parse_base_cons_plus n i r, ?_⟩
    rw [parse_base_cons_plus, parse_base_cons_minus]
  · norm_num [Expression.eval, FP.neg, FP.finVal, val, neg]

/-- The original C8 overstates the scope of the negation: `parse ('+' ++ e)`
does not wrap the tree of the whole expression `e` in `Neg` — for `e = "1+2"`
the parser builds `(-1) + 2`, not `-(1+2)`. -/
theorem claim_C8_counterexample :
    parse ['1', '+', '2'] = ParseResult.Present (add (val 1) (val 2)) ∧
    parse ['+', '1', '+', '2'] = ParseResult.Present (add (neg (val 1)) (val 2)) ∧
    parse ['+', '1', '+', '2'] ≠ ParseResult.Present (neg (add (val 1) (val 2))) := by
  refine ⟨by decide, by decide, by decide⟩

theorem claim_C8_witness :
    Parser.parse_base 5 ⟨0, ['+', '3']⟩ = Parser.parse_base 5 ⟨0, ['-', '3']⟩ :=
  (claim_C8.1 4 0 ['3']).2

/-- C9: whitespace idempotence — lines with the same token sequence (spaces
and tabs dropped between tokens, number runs kept whole) parse to results of
the same kind with equal trees, hence equal evaluated results, and a leading
space or tab never changes the token sequence; newline and carriage return
are not skippable whitespace but end the input: everything from the first
line terminator onwards is invisible to `parse`. -/
theorem claim_C9 :
    (∀ l₁ l₂ : List Char, tokenize l₁ = tokenize l₂ →
      ParseResult.sim (parse l₁) (parse l₂)) ∧
    (∀ (c : Char) (l : List Char), is_sp c = true → tokenize (c :: l) = tokenize l) ∧
    (∀ (l₁ l₂ : List Char) (e₁ e₂ : Expression), tokenize l₁ = tokenize l₂ →
      parse l₁ = ParseResult.Present e₁ → parse l₂ = ParseResult.Present e₂ →
      Expression.eval e₁ = Expression.eval e₂) ∧
    (∀ l : List Char, parse (truncNL l) = parse l) ∧
    (∀ (l ext : List Char) (c : Char), isNL c = true →
      parse (truncNL l ++ c :: ext) = parse (truncNL l)) := by
  refine ⟨fun l₁ l₂ h => parse_sim_top h, fun c l h => tokenize_cons_sp h, ?_,
    parse_trunc_top, ?_⟩
  · intro l₁ l₂ e₁ e₂ h h₁ h₂
    have hs := parse_sim_top h
    rw [h₁, h₂] at hs
    have he : e₁ = e₂ := hs
    rw [he]
  · intro l ext c hc
    rw [← parse_trunc_top (truncNL l ++ c :: ext), truncNL_append_NL _ _ hc, truncNL_idem]

theorem claim_C9_witness :
    ParseResult.sim (parse ['1', '+', '2']) (parse ['1', ' ', '+', ' ', '2']) :=
  claim_C9.1 ['1', '+', '2'] ['1', ' ', '+', ' ', '2'] (by decide)

/-- C10: `Absent` is not exclusive to blank lines: `parse "1+"` returns
`Absent` although the line holds a non-space character — when the recursive
right-hand-side parse after a consumed operator returns `Absent`, the `map`
combinator propagates the `Absent` (discarding the already-parsed left
operand) as the level's result. -/
theorem claim_C10 :
    parse ['1', '+'] = ParseResult.Absent ∧
    (∃ c ∈ truncNL ['1', '+'], is_sp c = false) ∧
    (∀ f : Expression → Expression,
      ParseResult.map f ParseResult.Absent = ParseResult.Absent) ∧
    (∀ (n : Nat) (s0 : Parser) (lhs : Expression) (s1 : Parser) (op : AddOp) (s3 : Parser),
      Parser.parse_mul n s0 = some (ParseResult.Present lhs, s1) →
      add_op_of (Parser.peek (Parser.skip_space s1)) = some op →
      Parser.parse_add n (Parser.skip (Parser.skip_space s1)) =
        some (ParseResult.Absent, s3) →
      Parser.parse_add (n + 1) s0 = some (ParseResult.Absent, s3)) := by
  refine ⟨by decide, by decide, fun f => rfl, ?_⟩
  intro n s0 lhs s1 op s3 h1 hop h3
  rw [parse_add_succ_eq n s0 h1, hop, h3]
  rfl

theorem claim_C10_witness :
    Parser.parse_add 9 ⟨0, ['1', '+']⟩ = some (ParseResult.Absent, (⟨2, []⟩ : Parser)) :=
  claim_C10.2.2.2 8 ⟨0, ['1', '+']⟩ (val 1) ⟨1, ['+']⟩ AddOp.Add ⟨2, []⟩
    (by decide) (by decide) (by decide)

end RE
